import Mathlib

/-!
Shallow embedding of the download-utils Chrome plugin core
(src/lib/archive/archive.ts, src/lib/images/helpers.ts, src/utils/array.ts,
src/utils/dom.ts, and the shared string utilities: pathJoin, sanitizeFilename,
sanitizeFilepath).

Strings are modelled as Lean `String` (a packed `List Char`); most work happens
on `List Char`.  JavaScript regex replacements used by the source are embedded
as explicit recursive char-list functions.  Numbers rendered into template
literals are embedded by a decimal-representation function `decRepr`.
-/

namespace DL

/- ------------------------------------------------------------------ -/
/- Character classes used by the sanitizers                            -/
/- ------------------------------------------------------------------ -/

/-- Characters of the JavaScript character class `[\\/:*?"<>|]` used by
`sanitizeFilename`. -/
def invalidFileChar (c : Char) : Bool :=
  c = '\\' || c = '/' || c = ':' || c = '*' || c = '?' || c = '"' || c = '<' ||
  c = '>' || c = '|'

/-- Characters of the class `[\u0000-\u001f\u007f]` (control characters). -/
def controlChar (c : Char) : Bool :=
  c.toNat ≤ 0x1f || c.toNat = 0x7f

/-- JavaScript whitespace (`\s` and the characters removed by
`String.prototype.trim`): tab through carriage return, space, NBSP, the
Unicode space separators, line/paragraph separators and the BOM. -/
def jsWhitespace (c : Char) : Bool :=
  (0x9 ≤ c.val && c.val ≤ 0xd) || c = ' ' || c.val = 0xa0 || c.val = 0x1680 ||
  (0x2000 ≤ c.val && c.val ≤ 0x200a) || c.val = 0x2028 || c.val = 0x2029 ||
  c.val = 0x202f || c.val = 0x205f || c.val = 0x3000 || c.val = 0xfeff

/- ------------------------------------------------------------------ -/
/- Regex-replacement primitives on char lists                          -/
/- ------------------------------------------------------------------ -/

/-- Helper for `collapseRuns`: `inRun` records whether the previous character
belonged to a run of characters satisfying `p` (in which case the current run
has already emitted its replacement). -/
def collapseRunsAux (p : Char → Bool) (r : Char) : Bool → List Char → List Char
  | _, [] => []
  | inRun, c :: cs =>
    if p c then
      if inRun then collapseRunsAux p r true cs
      else r :: collapseRunsAux p r true cs
    else c :: collapseRunsAux p r false cs

/-- Replace every maximal run of characters satisfying `p` by the single
character `r` (the effect of `.replace(/X+/g, r)` for a character class X). -/
def collapseRuns (p : Char → Bool) (r : Char) (l : List Char) : List Char :=
  collapseRunsAux p r false l

/-- Remove every character satisfying `p` (the effect of `.replace(/X+/g, '')`). -/
def removeAll (p : Char → Bool) (l : List Char) : List Char :=
  l.filter (fun c => !p c)

/-- JavaScript `String.prototype.trim`. -/
def jsTrim (l : List Char) : List Char :=
  ((l.dropWhile jsWhitespace).reverse.dropWhile jsWhitespace).reverse

/-- Strip a maximal run of `c` from the front (`.replace(/^c+/, '')`). -/
def stripLeading (c : Char) (l : List Char) : List Char :=
  l.dropWhile (· = c)

/-- Strip a maximal run of `c` from the back (`.replace(/c+$/, '')`). -/
def stripTrailing (c : Char) (l : List Char) : List Char :=
  (l.reverse.dropWhile (· = c)).reverse

/-- JavaScript `String.prototype.split(sep)` for a single-character
separator: `"" ↦ [""]`, `"a/" ↦ ["a", ""]`, etc. -/
def splitOnChar (sep : Char) : List Char → List (List Char)
  | [] => [[]]
  | c :: cs =>
    if c = sep then [] :: splitOnChar sep cs
    else
      match splitOnChar sep cs with
      | s :: rest => (c :: s) :: rest
      | [] => [[c]]

/-- JavaScript `Array.prototype.join(sep)` for a single-character separator. -/
def joinWithChar (sep : Char) : List (List Char) → List Char
  | [] => []
  | [s] => s
  | s :: rest => s ++ sep :: joinWithChar sep rest

/- ------------------------------------------------------------------ -/
/- Optional-value helpers (src/utils/optional.ts)                      -/
/- ------------------------------------------------------------------ -/

/-- Embedding of `isNonEmptyString` from src/utils/optional.ts, restricted to
values statically known to be strings: the string trims to something
non-empty. -/
def isNonEmptyStringB (s : String) : Bool :=
  jsTrim s.data ≠ []

/- ------------------------------------------------------------------ -/
/- PathSanitizer (sanitizeFilename / sanitizeFilepath / pathJoin)      -/
/- ------------------------------------------------------------------ -/

/-- Embedding of `sanitizeFilename` (shared string utilities): trim, replace
runs of invalid characters by a hyphen, strip control characters, collapse
whitespace runs to a single space, strip leading and trailing dots, and fall
back to "file" when the input or the result is effectively empty. -/
def sanitizeFilename (name : String) : String :=
  if !isNonEmptyStringB name then "file"
  else
    let base := jsTrim name.data
    let c1 := collapseRuns invalidFileChar '-' base
    let c2 := removeAll controlChar c1
    let c3 := collapseRuns jsWhitespace ' ' c2
    let c4 := stripTrailing '.' (stripLeading '.' c3)
    if jsTrim c4 ≠ [] then ⟨c4⟩ else "file"

/-- Embedding of `sanitizeFilepath`: replace backslashes by slashes, split on
'/', trim each segment, drop empty / "." / ".." segments, sanitize each
remaining segment, rejoin, preserving one trailing slash when the input had
one; "file" when nothing remains. -/
def sanitizeFilepath (path : String) : String :=
  let normalized := path.data.map fun c => if c = '\\' then '/' else c
  let hasTrailing := normalized.getLast? = some '/'
  let parts :=
    (((splitOnChar '/' normalized).map jsTrim).filter
        (fun s => s ≠ [] && s ≠ ['.'] && s ≠ ['.', '.'])).map
      fun s => (sanitizeFilename ⟨s⟩).data
  let cleaned := joinWithChar '/' parts
  if cleaned = [] then "file"
  else if hasTrailing then ⟨cleaned ++ ['/']⟩ else ⟨cleaned⟩

/-- Embedding of `pathJoin`: join the defined, non-empty string parts with '/'
and sanitize the result. -/
def pathJoin (parts : List (Option String)) : String :=
  let kept := (parts.filterMap id).filter isNonEmptyStringB
  sanitizeFilepath ⟨joinWithChar '/' (kept.map String.data)⟩

/- ------------------------------------------------------------------ -/
/- Decimal rendering of a counter (template literal interpolation)     -/
/- ------------------------------------------------------------------ -/

/-- Decimal digit character for a value below ten. -/
def decDigit : Nat → Char
  | 0 => '0' | 1 => '1' | 2 => '2' | 3 => '3' | 4 => '4'
  | 5 => '5' | 6 => '6' | 7 => '7' | 8 => '8' | _ => '9'

/-- Fueled decimal rendering; the fuel bounds the number of digits. -/
def decReprAux : Nat → Nat → List Char
  | 0, _ => []
  | fuel + 1, n =>
    if n < 10 then [decDigit n] else decReprAux fuel (n / 10) ++ [decDigit (n % 10)]

/-- Decimal rendering of a natural number, as produced by interpolating a
JavaScript number into a template literal. -/
def decRepr (n : Nat) : List Char :=
  decReprAux (n + 1) n

/- ------------------------------------------------------------------ -/
/- Archive store (ArchiveTool, src/lib/archive/archive.ts)             -/
/- ------------------------------------------------------------------ -/

/-- Binary content; only identity matters for the archive claims. -/
structure Blob where
  bytes : List Nat
deriving DecidableEq, Repr

/-- Embedding of ArchiveTool's private state.  The `files` object is an
association list in insertion order; `archive` is the lazily built cached
container (a JSZip value, modelled by its entry list); `workQueue` counts the
pending asynchronous operations. -/
structure ArchiveTool where
  name : String
  files : List (String × Blob)
  archive : Option (List (String × Blob))
  workQueue : Nat
deriving DecidableEq, Repr

/-- A fresh store, as produced by the zero-argument constructor. -/
def ArchiveTool.init : ArchiveTool :=
  ⟨"archive", [], none, 0⟩

/-- Keys of the files object, in property order. -/
def keysOf (files : List (String × Blob)) : List String :=
  files.map Prod.fst

/-- JavaScript property assignment on the files object: overwrite an existing
key in place, otherwise append. -/
def objSet (files : List (String × Blob)) (k : String) (v : Blob) :
    List (String × Blob) :=
  if (keysOf files).contains k then
    files.map fun e => if e.1 = k then (k, v) else e
  else files ++ [(k, v)]

/-- JavaScript `delete` on the files object. -/
def objDelete (files : List (String × Blob)) (k : String) :
    List (String × Blob) :=
  files.filter fun e => e.1 != k

/-- The suffix `" (counter)"` appended on a collision. -/
def mkSuffix (counter : Nat) : List Char :=
  ' ' :: '(' :: (decRepr counter ++ [')'])

/-- Split at the last occurrence of `sep`: returns the prefix through the
last separator inclusive (empty when absent) and the rest, matching the
`lastIndexOf`/`slice` combination used by the source. -/
def splitAfterLast (sep : Char) (l : List Char) : List Char × List Char :=
  let r := l.reverse
  ((r.dropWhile (· ≠ sep)).reverse, (r.takeWhile (· ≠ sep)).reverse)

/-- Collision-resolution candidate for a directory path: the trailing slashes
are trimmed, the suffix appended, and the slash restored. -/
def dirCandidate (basePath : List Char) (counter : Nat) : List Char :=
  stripTrailing '/' basePath ++ mkSuffix counter ++ ['/']

/-- Collision-resolution candidate for a file path: the suffix goes before
the extension when the filename has a dot at a positive index, else at the
end. -/
def fileCandidate (basePath : List Char) (counter : Nat) : List Char :=
  let dir := (splitAfterLast '/' basePath).1
  let filename := (splitAfterLast '/' basePath).2
  let dpre := (splitAfterLast '.' filename).1
  let fpost := (splitAfterLast '.' filename).2
  if 2 ≤ dpre.length then
    dir ++ (dpre.dropLast ++ (mkSuffix counter ++ ('.' :: fpost)))
  else dir ++ (filename ++ mkSuffix counter)

/-- The candidate tried with counter value `counter`. -/
def nextCandidate (isDir : Bool) (basePath : List Char) (counter : Nat) :
    List Char :=
  if isDir then dirCandidate basePath counter else fileCandidate basePath counter

/-- The while-loop guard of `getSafePath`: an exact key match, or (directory)
the slash-trimmed form being a key, or (file) an existing non-ignored key
lying under `candidate ++ "/"`. -/
def collides (files : List (String × Blob)) (ignoring : List String)
    (isDir : Bool) (candidate : List Char) : Bool :=
  (keysOf files).contains ⟨candidate⟩ ||
    (if isDir then (keysOf files).contains ⟨stripTrailing '/' candidate⟩
     else
       (keysOf files).any fun k =>
         !(ignoring.contains k) && (candidate ++ ['/']).isPrefixOf k.data)

/-- The retry loop of `getSafePath`, fueled; the source loops until the
candidate is collision-free (termination is proved separately). -/
def getSafePathAux (files : List (String × Blob)) (ignoring : List String)
    (isDir : Bool) (basePath : List Char) :
    Nat → Nat → List Char → Option (List Char)
  | 0, _, _ => none
  | fuel + 1, counter, candidate =>
    if collides files ignoring isDir candidate then
      getSafePathAux files ignoring isDir basePath fuel (counter + 1)
        (nextCandidate isDir basePath counter)
    else some candidate

/-- Embedding of `ArchiveTool.getSafePath`.  The fuel `files.length + 1`
always suffices (see the pigeonhole argument in the C1 development), so
`none` is unreachable. -/
def ArchiveTool.getSafePath (st : ArchiveTool) (path : String)
    (ignoring : List String) : Option String :=
  let basePath := (sanitizeFilepath path).data
  let isDir := decide (basePath.getLast? = some '/')
  (getSafePathAux st.files ignoring isDir basePath (st.files.length + 1) 1
      basePath).map fun l => ⟨l⟩

/-- Embedding of `ArchiveTool.addFile`: collision-resolve the path, store the
blob, and discard the cached container (`markDirty`). -/
def ArchiveTool.addFile (st : ArchiveTool) (filepath : String) (file : Blob) :
    ArchiveTool :=
  match st.getSafePath filepath [] with
  | some p => { st with files := objSet st.files p file, archive := none }
  | none => st

/-- Embedding of `ArchiveTool.renameFile`: a warning-and-return when the old
path is absent; otherwise the new path is collision-resolved and the entry
moved.  The source does not touch the cached container here. -/
def ArchiveTool.renameFile (st : ArchiveTool) (path newPath : String) :
    ArchiveTool :=
  if (keysOf st.files).contains path then
    match st.getSafePath newPath [] with
    | some np =>
      match st.files.lookup path with
      | some file => { st with files := objDelete (objSet st.files np file) path }
      | none => st
    | none => st
  else st

/-- Embedding of `ArchiveTool.deleteFile`: a warning-and-return when the path
is absent; otherwise the entry is removed.  (The `instanceof
SubdirectoryHandle` branch of the source is dead — stored values are always
blobs — and the `recursive` flag feeds only that branch.)  The source does
not touch the cached container here. -/
def ArchiveTool.deleteFile (st : ArchiveTool) (path : String)
    (_recursive : Bool) : ArchiveTool :=
  if (keysOf st.files).contains path then
    { st with files := objDelete st.files path }
  else st

/-- Embedding of `createZip`: the container holds exactly the file entries. -/
def createZip (files : List (String × Blob)) : List (String × Blob) :=
  files

/-- Caching effect of the private `archive` getter
(`#archive ?? (#archive = createZip(#files))`): build and remember the
container when absent. -/
def ArchiveTool.touchArchive (st : ArchiveTool) : ArchiveTool :=
  match st.archive with
  | some _ => st
  | none => { st with archive := some (createZip st.files) }

/-- Decimal digit test used in the analysis of `decRepr`. -/
def isDigitChar (c : Char) : Bool :=
  48 ≤ c.toNat && c.toNat ≤ 57

/-- Value of a decimal digit string (analysis helper for `decRepr`). -/
def decVal (l : List Char) : Nat :=
  l.foldl (fun a c => 10 * a + (c.toNat - 48)) 0

/-- The sequence of candidates tried by the `getSafePath` loop: index 0 is the
sanitized base path, index n (n ≥ 1) the candidate with suffix " (n)". -/
def candAt (isDir : Bool) (basePath : List Char) : Nat → List Char
  | 0 => basePath
  | n + 1 => nextCandidate isDir basePath (n + 1)

/- ------------------------------------------------------------------ -/
/- Remaining ArchiveTool methods                                       -/
/- ------------------------------------------------------------------ -/

/-- Blob built from a plain string, as `new Blob([content])` over the text
content (byte identity is all the claims need). -/
def blobOfText (text : String) : Blob :=
  ⟨text.data.map Char.toNat⟩

/-- Embedding of `ArchiveTool.addTextFile` restricted to string content (the
HTMLElement branch reads DOM state and is outside the model): wraps the text
in a blob and delegates to `addFile`. -/
def ArchiveTool.addTextFile (st : ArchiveTool) (filepath text : String) :
    ArchiveTool :=
  st.addFile filepath (blobOfText text)

/-- Embedding of `ArchiveTool.addImage`: the acquisition callback is
asynchronous (its body is modelled separately by `imageToBlobHelper`); at the
store level the call enqueues one operation on the work queue and returns. -/
def ArchiveTool.addImage (st : ArchiveTool) : ArchiveTool :=
  { st with workQueue := st.workQueue + 1 }

/-- Embedding of `ArchiveTool.addImages`: enqueues the batch operation on the
work queue and returns. -/
def ArchiveTool.addImages (st : ArchiveTool) : ArchiveTool :=
  { st with workQueue := st.workQueue + 1 }

/- ------------------------------------------------------------------ -/
/- Subdirectory handles (src/lib/archive/archive.ts)                   -/
/- ------------------------------------------------------------------ -/

/-- Errors surfaced by subdirectory-handle methods: the disposed-handle check
throw (`checkValidHandle`), or the TypeError raised when a method is invoked
on the null `#parent` reference that `deleteDirectory` leaves behind. -/
inductive SubErr where
  | disposed (path : String)
  | nullParent
deriving DecidableEq, Repr

/-- Embedding of SubdirectoryHandle's private state: `#path`, `#parent`
(null after deletion) and `#isDeleted`.  The parent store is held by value;
each claim concerns a single handle and its store. -/
structure SubdirectoryHandle where
  path : String
  parent : Option ArchiveTool
  isDeleted : Bool
deriving DecidableEq, Repr

/-- Embedding of `checkValidHandle`. -/
def SubdirectoryHandle.checkValidHandle (h : SubdirectoryHandle) :
    Except SubErr Unit :=
  if h.isDeleted then .error (.disposed h.path) else .ok ()

/-- Dereferencing `this.#parent` for a method call or property access: a null
reference raises a TypeError. -/
def SubdirectoryHandle.useParent (h : SubdirectoryHandle) :
    Except SubErr ArchiveTool :=
  match h.parent with
  | some st => .ok st
  | none => .error .nullParent

/-- Embedding of `asParentPath`. -/
def SubdirectoryHandle.asParentPath (h : SubdirectoryHandle)
    (relativePath : Option String) : String :=
  match relativePath with
  | some rp => if isNonEmptyStringB rp then pathJoin [some h.path, some rp]
    else h.path
  | none => h.path

/-- The prefix-filtered view that the `files` getter computes from the
parent's full map (entries under the handle's path, the path key itself
excluded). -/
def filesOf (st : ArchiveTool) (path : String) : List (String × Blob) :=
  st.files.filter fun e => path.data.isPrefixOf e.1.data && e.1 != path

/-- Embedding of the `parent` getter. -/
def SubdirectoryHandle.parentGet (h : SubdirectoryHandle) :
    Except SubErr (Option ArchiveTool) := do
  h.checkValidHandle
  .ok h.parent

/-- Embedding of the `path` getter. -/
def SubdirectoryHandle.pathGet (h : SubdirectoryHandle) :
    Except SubErr String := do
  h.checkValidHandle
  .ok h.path

/-- Embedding of the `files` getter. -/
def SubdirectoryHandle.filesGet (h : SubdirectoryHandle) :
    Except SubErr (List (String × Blob)) := do
  h.checkValidHandle
  let st ← h.useParent
  .ok (filesOf st h.path)

/-- Replace a leading occurrence of `old` by `next`.  The source performs
`p.replace(new RegExp('^' + path, 'm'), newPath)` with the path spliced into
the pattern unescaped; for paths free of regex metacharacters this is exactly
leading-prefix replacement, which is what the model embeds. -/
def replaceHead (old next s : String) : String :=
  if old.data.isPrefixOf s.data then ⟨next.data ++ s.data.drop old.data.length⟩
  else s

/-- Embedding of `SubdirectoryHandle.rename`: collision-resolve the new path
ignoring the entries under the handle, then (recursively) move every affected
entry by rewriting its leading prefix, finally record the new path. -/
def SubdirectoryHandle.rename (h : SubdirectoryHandle) (path : String)
    (recursive : Bool) : Except SubErr SubdirectoryHandle := do
  h.checkValidHandle
  let st ← h.useParent
  let affected := filesOf st h.path
  match st.getSafePath path (affected.map Prod.fst) with
  | none => .ok h
  | some newPath =>
    if recursive then
      let st2 := affected.foldl
        (fun acc e => acc.renameFile e.1 (replaceHead h.path newPath e.1)) st
      .ok ⟨newPath, some st2, h.isDeleted⟩
    else .ok ⟨newPath, some st, h.isDeleted⟩

/-- Embedding of `SubdirectoryHandle.reparent`: copy every affected entry
into the target store under the rewritten prefix, delete the originals from
the source (non-recursively), then adopt the target as parent.  Returns the
updated handle and the mutated source store. -/
def SubdirectoryHandle.reparent (h : SubdirectoryHandle)
    (archive : ArchiveTool) (newPath? : Option String) :
    Except SubErr (SubdirectoryHandle × ArchiveTool) := do
  h.checkValidHandle
  let st ← h.useParent
  match archive.getSafePath (newPath?.getD h.path) [] with
  | none => .ok (h, st)
  | some newPath =>
    let affected := filesOf st h.path
    let target := affected.foldl
      (fun acc e => acc.addFile (replaceHead h.path newPath e.1) e.2) archive
    let source := affected.foldl (fun acc e => acc.deleteFile e.1 false) st
    .ok (⟨h.path, some target, h.isDeleted⟩, source)

/-- Embedding of `SubdirectoryHandle.deleteDirectory`: mark the handle
deleted, detach the parent, and (recursively) delete every key sharing the
handle's path as a prefix.  Returns the former parent and the dead handle. -/
def SubdirectoryHandle.deleteDirectory (h : SubdirectoryHandle)
    (recursive : Bool) : Except SubErr (Option ArchiveTool × SubdirectoryHandle) := do
  h.checkValidHandle
  let h2 : SubdirectoryHandle := ⟨h.path, none, true⟩
  match h.parent, recursive with
  | p, false => .ok (p, h2)
  | none, true => .error .nullParent
  | some st, true =>
    let affected := (keysOf st.files).filter fun k => h.path.data.isPrefixOf k.data
    .ok (some (affected.foldl (fun acc k => acc.deleteFile k false) st), h2)

/-- Embedding of `SubdirectoryHandle.addFile`. -/
def SubdirectoryHandle.addFile (h : SubdirectoryHandle)
    (relativePath : String) (file : Blob) : Except SubErr SubdirectoryHandle := do
  h.checkValidHandle
  let st ← h.useParent
  .ok ⟨h.path, some (st.addFile (h.asParentPath (some relativePath)) file),
    h.isDeleted⟩

/-- Embedding of `SubdirectoryHandle.addTextFile` (string content). -/
def SubdirectoryHandle.addTextFile (h : SubdirectoryHandle)
    (relativePath text : String) : Except SubErr SubdirectoryHandle := do
  h.checkValidHandle
  let st ← h.useParent
  .ok ⟨h.path, some (st.addTextFile (h.asParentPath (some relativePath)) text),
    h.isDeleted⟩

/-- Embedding of `SubdirectoryHandle.addImage`: the source does NOT call
`checkValidHandle` here; it evaluates `this.#parent.addImage(...)`, whose
member access on the null parent raises a TypeError. -/
def SubdirectoryHandle.addImage (h : SubdirectoryHandle) :
    Except SubErr SubdirectoryHandle := do
  let st ← h.useParent
  .ok ⟨h.path, some st.addImage, h.isDeleted⟩

/-- Embedding of `SubdirectoryHandle.addImages`: like `addImage`, the source
does not call `checkValidHandle` here. -/
def SubdirectoryHandle.addImages (h : SubdirectoryHandle) :
    Except SubErr SubdirectoryHandle := do
  let st ← h.useParent
  .ok ⟨h.path, some st.addImages, h.isDeleted⟩

/-- Embedding of `SubdirectoryHandle.renameFile`. -/
def SubdirectoryHandle.renameFile (h : SubdirectoryHandle)
    (oldRel newRel : String) : Except SubErr SubdirectoryHandle := do
  h.checkValidHandle
  let st ← h.useParent
  .ok ⟨h.path, some (st.renameFile (h.asParentPath (some oldRel))
    (h.asParentPath (some newRel))), h.isDeleted⟩

/-- Embedding of `ArchiveTool.getSubdirectory`: stored values are blobs, so a
stored entry at the sanitized path fails the `instanceof SubdirectoryHandle`
check (a dead branch the spec itself flags) and yields undefined; otherwise a
fresh unstored handle is returned. -/
def ArchiveTool.getSubdirectory (st : ArchiveTool) (filepath : String) :
    Option SubdirectoryHandle :=
  let fp := sanitizeFilepath filepath
  if (keysOf st.files).contains fp then none
  else some ⟨fp, some st, false⟩

/-- Embedding of `SubdirectoryHandle.getSubdirectory`. -/
def SubdirectoryHandle.getSubdirectory (h : SubdirectoryHandle)
    (rel : String) : Except SubErr (Option SubdirectoryHandle) := do
  h.checkValidHandle
  let st ← h.useParent
  .ok (st.getSubdirectory (h.asParentPath (some rel)))

/-- Download name mangling used by `downloadSubdirectory`:
`path.replace(/\//g, '__')`. -/
def slashesToUnderscores (l : List Char) : List Char :=
  l.flatMap fun c => if c = '/' then ['_', '_'] else [c]

/-- Embedding of `ArchiveTool.downloadSubdirectory`: resolve the handle, and
when it exists produce the container entries of its view together with the
file name handed to the save-file collaborator. -/
def ArchiveTool.downloadSubdirectory (st : ArchiveTool) (path : String) :
    Option (List (String × Blob) × String) :=
  match st.getSubdirectory path with
  | none => none
  | some sub =>
    some (createZip (filesOf st sub.path),
      ⟨slashesToUnderscores sub.path.data ++ ".zip".data⟩)

/-- Embedding of `SubdirectoryHandle.downloadSubdirectory`. -/
def SubdirectoryHandle.downloadSubdirectory (h : SubdirectoryHandle)
    (rel : String) : Except SubErr (Option (List (String × Blob) × String)) := do
  h.checkValidHandle
  let st ← h.useParent
  .ok (st.downloadSubdirectory (h.asParentPath (some rel)))

/-- Embedding of `SubdirectoryHandle.deleteFile`: resolve by suffix within
the view; zero or ambiguous matches warn and leave the store unchanged. -/
def SubdirectoryHandle.deleteFile (h : SubdirectoryHandle)
    (relOrName : String) : Except SubErr SubdirectoryHandle := do
  h.checkValidHandle
  let st ← h.useParent
  let candidates := ((filesOf st h.path).map Prod.fst).filter fun k =>
    relOrName.data.isSuffixOf k.data
  match candidates with
  | [c] => .ok ⟨h.path, some (st.deleteFile c true), h.isDeleted⟩
  | _ => .ok h

/-- Embedding of `SubdirectoryHandle.download`: the source does not call
`checkValidHandle` here either; it goes straight to
`this.#parent.downloadSubdirectory(this.#path)`. -/
def SubdirectoryHandle.download (h : SubdirectoryHandle) :
    Except SubErr (Option (List (String × Blob) × String)) := do
  let st ← h.useParent
  .ok (st.downloadSubdirectory h.path)

/- ------------------------------------------------------------------ -/
/- BatchScheduler (batchDelayForEach, src/utils/array.ts)              -/
/- ------------------------------------------------------------------ -/

/-- JavaScript `Array.prototype.map` with the element index, the index
counter starting at `k`. -/
def mapIdxFrom {α β : Type} (f : α → Nat → β) : Nat → List α → List β
  | _, [] => []
  | k, a :: as => f a k :: mapIdxFrom f (k + 1) as

/-- One pass of the `batchDelayForEach` loop over the remaining items, with
`i` the running start index.  Each slice is `remaining.slice(0, batchSize)`;
its members settle through the callback, which receives the member, its
original index `i + idx`, and — exactly as in the source, where the third
`map` argument is the array being mapped — the current SLICE.  The second
component counts `delay(delayMS)` suspensions, performed whenever
`i + batchSize < array.length`, i.e. `batchSize < remaining.length`.  Fuel
bounds the iteration count; for `batchSize = 0` the source loops forever. -/
def bdfeAux {α ε ρ : Type} (callback : α → Nat → List α → Except ε ρ)
    (batchSize : Nat) : Nat → List α → Nat → List (Except ε ρ) × Nat
  | 0, _, _ => ([], 0)
  | _ + 1, [], _ => ([], 0)
  | fuel + 1, a :: rem, i =>
    let slice := (a :: rem).take batchSize
    let sliceResults := mapIdxFrom (fun item idx => callback item (i + idx) slice) 0 slice
    let rest := (a :: rem).drop batchSize
    let step := bdfeAux callback batchSize fuel rest (i + batchSize)
    (sliceResults ++ step.1,
      (if batchSize < (a :: rem).length then 1 else 0) + step.2)

/-- Embedding of `batchDelayForEach`: settled results in input order plus the
number of inter-slice delay suspensions (the `delayMS` duration itself is not
observable in the pure model).  The fuel `array.length + 1` suffices whenever
`batchSize ≥ 1`; for `batchSize = 0` the source never terminates and the
model returns immediately — the claims assume `batchSize ≥ 1`. -/
def batchDelayForEach {α ε ρ : Type} (array : List α)
    (callback : α → Nat → List α → Except ε ρ) (_delayMS batchSize : Nat) :
    List (Except ε ρ) × Nat :=
  bdfeAux callback batchSize (array.length + 1) array 0

/- ------------------------------------------------------------------ -/
/- Image constants (src/lib/images/constants.ts)                       -/
/- ------------------------------------------------------------------ -/

def MIME_TO_EXTENSION_MAP : List (String × String) :=
  [("image/jpeg", "jpg"), ("image/jpg", "jpg"), ("image/png", "png"),
   ("image/gif", "gif"), ("image/webp", "webp"), ("image/apng", "apng"),
   ("image/avif", "avif"), ("image/svg+xml", "svg"), ("image/bmp", "bmp"),
   ("image/x-icon", "ico"), ("image/vnd.microsoft.icon", "ico")]

def EXTENSION_TO_MIME_MAP : List (String × String) :=
  [("jpg", "image/jpeg"), ("jpeg", "image/jpeg"), ("png", "image/png"),
   ("gif", "image/gif"), ("webp", "image/webp"), ("apng", "image/apng"),
   ("avif", "image/avif"), ("svg", "image/svg+xml"), ("bmp", "image/bmp"),
   ("ico", "image/x-icon")]

def CONVERSION_EXTENSIONS : List String := ["webp", "avif", "jpg"]

def KNOWN_IMAGE_EXTENSIONS : List String :=
  ["jpg", "jpeg", "png", "gif", "webp", "apng", "avif", "svg", "bmp", "ico"]

def STATIC_IMAGE_EXTENSIONS : List String := ["jpg", "jpeg", "png", "bmp", "ico"]

def ANIMATED_FORMATS : List String := ["webp", "gif", "apng", "avif"]

def URL_IMAGE_FORMAT_KEYS : List String :=
  ["format", "fm", "type", "imageformat", "ext"]

/-- Alternatives of the animated-extension regex, in pattern order. -/
def ANIMATED_EXT_PATTERN : List String := ["gif", "apng", "webp", "avif"]

/- ------------------------------------------------------------------ -/
/- URL model (platform URL / URLSearchParams collaborators)            -/
/- ------------------------------------------------------------------ -/

/-- ASCII lower-casing, matching `String.prototype.toLowerCase` on the ASCII
inputs this development quantifies over. -/
def jsToLower (l : List Char) : List Char :=
  l.map Char.toLower

/-- Components of a parsed absolute hierarchical URL:
`scheme "://" authority pathRaw search hash` with `search` empty or starting
with '?' and `hash` empty or starting with '#'. -/
structure URLParts where
  scheme : String
  authority : String
  pathRaw : String
  search : String
  hash : String
deriving DecidableEq, Repr

/-- WHATWG serializes an empty path of a special scheme as "/". -/
def URLParts.pathname (u : URLParts) : String :=
  if u.pathRaw = "" then "/" else u.pathRaw

def isSchemeChar (c : Char) : Bool :=
  c.isAlpha || c.isDigit || c = '+' || c = '-' || c = '.'

/-- Model of the platform's `new URL(url, window.location.href)` restricted
to absolute hierarchical URLs (`scheme://authority/path?query#fragment`).
Inputs outside this shape — including relative URLs, which the browser would
resolve against the page — yield `none`, sending callers into their
catch/fallback branches. -/
def parseURL (url : String) : Option URLParts :=
  let cs := url.data
  let scheme := cs.takeWhile (· ≠ ':')
  let rest0 := cs.dropWhile (· ≠ ':')
  if [':', '/', '/'].isPrefixOf rest0 then
    if scheme = [] || !scheme.all isSchemeChar then none
    else
      let rest := rest0.drop 3
      let auth := rest.takeWhile fun c => c ≠ '/' && c ≠ '?' && c ≠ '#'
      let rest2 := rest.dropWhile fun c => c ≠ '/' && c ≠ '?' && c ≠ '#'
      if auth = [] then none
      else
        let path := rest2.takeWhile fun c => c ≠ '?' && c ≠ '#'
        let rest3 := rest2.dropWhile fun c => c ≠ '?' && c ≠ '#'
        some ⟨⟨scheme⟩, ⟨auth⟩, ⟨path⟩, ⟨rest3.takeWhile (· ≠ '#')⟩,
          ⟨rest3.dropWhile (· ≠ '#')⟩⟩
  else none

def hexVal (c : Char) : Nat :=
  if c.isDigit then c.toNat - 48 else (c.toLower.toNat - 87)

def isHexDigitChar (c : Char) : Bool :=
  c.isDigit || ('a' ≤ c && c ≤ 'f') || ('A' ≤ c && c ≤ 'F')

/-- JavaScript `String.prototype.includes`: the pattern occurs as a
contiguous substring. -/
def containsSub (pat : List Char) : List Char → Bool
  | [] => pat.isPrefixOf []
  | c :: rest => pat.isPrefixOf (c :: rest) || containsSub pat rest

/-- Query-string value decoding as URLSearchParams performs it: '+' becomes a
space and %XX hex escapes are decoded. -/
def percentDecode : List Char → List Char
  | [] => []
  | '%' :: h1 :: h2 :: rest =>
    if isHexDigitChar h1 && isHexDigitChar h2 then
      Char.ofNat (16 * hexVal h1 + hexVal h2) :: percentDecode rest
    else '%' :: percentDecode (h1 :: h2 :: rest)
  | '+' :: rest => ' ' :: percentDecode rest
  | c :: rest => c :: percentDecode rest

/-- Key/value pairs of a search string, as URLSearchParams enumerates them. -/
def searchPairs (search : String) : List (String × String) :=
  let body := match search.data with
    | '?' :: rest => rest
    | l => l
  ((splitOnChar '&' body).filter (· ≠ [])).map fun piece =>
    let k := piece.takeWhile (· ≠ '=')
    let v := piece.dropWhile (· ≠ '=')
    (⟨percentDecode k⟩,
      ⟨percentDecode (match v with | '=' :: r => r | _ => [])⟩)

/-- Model of `URLSearchParams.get`: the first value stored under the key. -/
def getSearchParam (search key : String) : Option String :=
  ((searchPairs search).find? fun p => p.1 == key).map Prod.snd

/- ------------------------------------------------------------------ -/
/- MetadataResolver (src/lib/images/helpers.ts)                        -/
/- ------------------------------------------------------------------ -/

/-- Character class of the extension validation regex `^[a-z0-9+]+$`. -/
def extAllowedChar (c : Char) : Bool :=
  ('a' ≤ c && c ≤ 'z') || c.isDigit || c = '+'

/-- Shared tail of both branches of `getExtensionFromURL`: take the substring
after the last dot, lower-case it, and validate it against `^[a-z0-9+]+$`. -/
def extFromSegment (seg : List Char) : Option String :=
  if (splitAfterLast '.' seg).1 = [] then none
  else
    let ext := jsToLower (splitAfterLast '.' seg).2
    if ext ≠ [] && ext.all extAllowedChar then some ⟨ext⟩ else none

/-- Embedding of `getExtensionFromURL`: parse the URL and take the extension
of the pathname's final segment; on a parse failure fall back to plain string
splitting. -/
def getExtensionFromURL (url : String) : Option String :=
  match parseURL url with
  | some u =>
    let lastSegment := (splitAfterLast '/' u.pathname.data).2
    let base := lastSegment.takeWhile (· ≠ '?')
    let namePart := base.takeWhile (· ≠ '#')
    extFromSegment namePart
  | none =>
    let path := url.data.takeWhile fun c => c ≠ '?' && c ≠ '#'
    extFromSegment (splitAfterLast '/' path).2

/-- Embedding of `getExtensionFromMime`: fixed-table lookup on the trimmed,
lower-cased MIME, falling back to stripping an "image/" prefix. -/
def getExtensionFromMime (mime : String) : Option String :=
  if mime = "" then none
  else
    let m := jsTrim (jsToLower mime.data)
    match MIME_TO_EXTENSION_MAP.lookup (⟨m⟩ : String) with
    | some e => some e
    | none =>
      if "image/".data.isPrefixOf m then some ⟨m.drop 6⟩ else none

/-- Embedding of `getMimeFromExtension`.  The source guard reads
`if (!ext || []) return undefined;` and an array literal is truthy, so the
guard is always taken and the table lookup below it is dead code: the
function always returns undefined. -/
def getMimeFromExtension (_ext : Option String) : Option String :=
  none

/-- JavaScript `a || b` over possibly-absent strings with "" falsy,
defaulting to `dflt`. -/
def jsStrOr (a : Option String) (dflt : String) : String :=
  match a with
  | some s => if s = "" then dflt else s
  | none => dflt

/-- Embedding of `getDownloadFilename`: extension precedence MIME-derived >
URL-derived > supplied default; an override name keeps its own interior
extension or receives the computed one; else the URL's final path segment
has its extension replaced by the computed one; else defaultBase. -/
def getDownloadFilename (overrideName url mime : Option String)
    (defaultExt defaultBase : String) : String :=
  let extFromMime := match mime with
    | some m => getExtensionFromMime m
    | none => none
  let extFromURL := match url with
    | some u => getExtensionFromURL u
    | none => none
  let ext := jsStrOr extFromMime (jsStrOr extFromURL defaultExt)
  match overrideName with
  | some ovr =>
    if ovr ≠ "" then
      let nm := jsTrim ovr.data
      let name := if nm = [] then defaultBase.data else nm
      let baseName := (name.reverse.takeWhile fun c =>
        c ≠ '/' && c ≠ '\\').reverse
      let dpre := (splitAfterLast '.' baseName).1
      let fpost := (splitAfterLast '.' baseName).2
      if 2 ≤ dpre.length && fpost ≠ [] then ⟨baseName⟩
      else ⟨baseName ++ '.' :: ext.data⟩
    else fromURLOrDefault url ext defaultBase
  | none => fromURLOrDefault url ext defaultBase
where
  fromURLOrDefault (url : Option String) (ext : String) (defaultBase : String) :
      String :=
    match url with
    | some u =>
      match parseURL u with
      | some parts =>
        let lastSeg0 := (splitAfterLast '/' parts.pathname.data).2
        let lastSeg := (lastSeg0.takeWhile (· ≠ '?')).takeWhile (· ≠ '#')
        if lastSeg ≠ [] then
          if 2 ≤ ((splitAfterLast '.' lastSeg).1).length then
            ⟨((splitAfterLast '.' lastSeg).1).dropLast ++ '.' :: ext.data⟩
          else ⟨lastSeg ++ '.' :: ext.data⟩
        else ⟨defaultBase.data ++ '.' :: ext.data⟩
      | none => ⟨defaultBase.data ++ '.' :: ext.data⟩
    | none => ⟨defaultBase.data ++ '.' :: ext.data⟩

/- ------------------------------------------------------------------ -/
/- AcquisitionStrategy heuristics (src/lib/images/helpers.ts)          -/
/- ------------------------------------------------------------------ -/

/-- Embedding of ImageMetadata. -/
structure ImageMetadata where
  src : String
  name : Option String
  extension : Option String
  mime : Option String
deriving DecidableEq, Repr

/-- Embedding of NormalizedDownloadOptions (the `params` passthrough is
opaque and omitted). -/
structure NormalizedDownloadOptions where
  filename : Option String
  preferNetwork : Bool
  preferCanvas : Bool
  convertMime : Option String
  downloadTimeoutMS : Option Nat
deriving DecidableEq, Repr

/-- Options value with every key absent. -/
def noOptions : NormalizedDownloadOptions :=
  ⟨none, false, false, none, some 5000⟩

/-- Embedding of `getMetadataFromURL`. -/
def getMetadataFromURL (url : String) (options : NormalizedDownloadOptions) :
    ImageMetadata :=
  let extension := getExtensionFromURL url
  { src := url
    name := match options.filename with
      | some f => if f ≠ "" then some f else none
      | none => none
    extension := extension
    mime := getMimeFromExtension extension }

/-- Does the position start with `.` followed (case-insensitively) by one of
the animated-prone extensions and the end-of-string/[?#] lookahead?  One
position of the regex `/\.(gif|apng|webp|avif)(?=($|[?#]))/i`. -/
def animExtAt : List Char → Bool
  | [] => false
  | c :: rest =>
    if c = '.' then
      ANIMATED_EXT_PATTERN.any fun fmt =>
        fmt.data.isPrefixOf (jsToLower rest) &&
          (match (rest.drop fmt.data.length).head? with
           | none => true
           | some c => c = '?' || c = '#')
    else false

def isPossiblyAnimatedScan : List Char → Bool
  | [] => false
  | c :: rest => animExtAt (c :: rest) || isPossiblyAnimatedScan rest

/-- Embedding of `isPossiblyAnimated`: the whole-string animated-extension
regex test. -/
def isPossiblyAnimated (url : String) : Bool :=
  isPossiblyAnimatedScan url.data

/-- After a matched `format=`/`fm=` key: skip the `\s*` and test for one of
the animated formats (on the already lower-cased tail). -/
def matchAnimAfter (l : List Char) : Bool :=
  ANIMATED_FORMATS.any fun fmt =>
    fmt.data.isPrefixOf (l.dropWhile jsWhitespace)

/-- One position of the fallback regex `/(format|fm)=\s*(webp|gif|apng|avif)/i`. -/
def hintAt (l : List Char) : Bool :=
  let low := jsToLower l
  (if "format=".data.isPrefixOf low then matchAnimAfter (low.drop 7) else false) ||
  (if "fm=".data.isPrefixOf low then matchAnimAfter (low.drop 3) else false)

def animatedHintScan : List Char → Bool
  | [] => false
  | c :: rest => hintAt (c :: rest) || animatedHintScan rest

/-- Embedding of `hasAnimatedFormatHint`: URLSearchParams lookups over the
hint keys plus raw `format=`/`fm=` substring checks on the lower-cased search
string; parse failure falls back to the regex over the raw URL. -/
def hasAnimatedFormatHint (url : String) : Bool :=
  match parseURL url with
  | some u =>
    (URL_IMAGE_FORMAT_KEYS.any fun key =>
      match getSearchParam u.search key with
      | some v => v ≠ "" && ANIMATED_FORMATS.contains (⟨jsToLower v.data⟩ : String)
      | none => false) ||
    (ANIMATED_FORMATS.any fun fmt =>
      containsSub ("format=".data ++ fmt.data) (jsToLower u.search.data) ||
        containsSub ("fm=".data ++ fmt.data) (jsToLower u.search.data))
  | none => animatedHintScan url.data

/-- Embedding of `doesPreferNetwork`. -/
def doesPreferNetwork (metadata : ImageMetadata)
    (options : NormalizedDownloadOptions) : Bool :=
  if options.preferNetwork then true
  else if options.preferCanvas then false
  else
    let hasKnownExtension := match metadata.extension with
      | some e => e ≠ "" && KNOWN_IMAGE_EXTENSIONS.contains e
      | none => false
    let hasStaticExtension := match metadata.extension with
      | some e => e ≠ "" && STATIC_IMAGE_EXTENSIONS.contains e
      | none => false
    let hasUnknownExtension := metadata.extension.isNone || !hasKnownExtension
    hasUnknownExtension || isPossiblyAnimated metadata.src ||
      (hasAnimatedFormatHint metadata.src && !hasStaticExtension)

/- ------------------------------------------------------------------ -/
/- ConversionEngine (convertBlobToFormat, src/utils/dom.ts)            -/
/- ------------------------------------------------------------------ -/

/-- Embedding of ImageDownloadMetadata (Downloadable plus the optional
metadata fields). -/
structure ImageDownloadMetadata where
  blob : Blob
  mime : Option String
  src : Option String
  name : Option String
  extension : Option String
deriving DecidableEq, Repr

/-- Environment of one conversion attempt: whether `createImageBitmap`
resolves, whether `canvas.getContext('2d')` yields a context (the same
canvas is asked twice, with the same outcome), whether the fallback `<img>`
fires `onload`, and the blob `canvas.toBlob` hands its callback (`none`
models a null blob, which makes the promise wrapper reject). -/
structure ConvEnv where
  bitmapDecode : Bool
  ctx2d : Bool
  imgLoad : Bool
  encodeResult : Option Blob
deriving DecidableEq, Repr

/-- Embedding of `convertBlobToFormat`: re-encode via the bitmap fast path,
falling back to an element-based decode; every failure path — falsy target,
decode rejection, missing context, element error, null encode result — falls
back to the original blob (the whole body sits in a try/catch returning
`blob`). -/
def convertBlobToFormat (env : ConvEnv) (blob : Blob) (targetMime : String) :
    Blob :=
  if targetMime = "" then blob
  else if env.bitmapDecode then
    if env.ctx2d then
      match env.encodeResult with
      | some converted => converted
      | none => blob
    else
      if env.imgLoad then
        if env.ctx2d then
          match env.encodeResult with
          | some converted => converted
          | none => blob
        else blob
      else blob
  else blob

/-- Embedding of the module-private `convertBlob` of
src/lib/images/helpers.ts: a no-op when no target MIME is requested or it
already matches; otherwise the blob is re-encoded and the mime field set to
the target.  `convertBlobToFormat` never rejects, so the catch branch that
would return the original download is dead. -/
def convertBlob (env : ConvEnv) (download : ImageDownloadMetadata)
    (options : Option NormalizedDownloadOptions) : ImageDownloadMetadata :=
  match options with
  | none => download
  | some opts =>
    match opts.convertMime with
    | none => download
    | some cm =>
      if download.mime = some cm then download
      else
        { download with
          blob := convertBlobToFormat env download.blob cm
          mime := some cm }

/- ------------------------------------------------------------------ -/
/- Acquisition failover (imageToBlobHelper, src/lib/images/helpers.ts) -/
/- ------------------------------------------------------------------ -/

/-- Payload of one successful strategy attempt, as produced by
`getImageBlobFromNetwork` (post-conversion) or `getImageBlobFromCanvas`:
the blob and its non-empty MIME string. -/
structure AcqDL where
  blob : Blob
  mime : String
deriving DecidableEq, Repr

/-- Environment of one acquisition: the settlement each strategy would reach
if driven to completion.  `canvas` covers the `createImage` load (when no
element was supplied) composed with `getImageBlobFromCanvas`. -/
structure AcqEnv where
  network : Except String AcqDL
  canvas : Except String AcqDL
deriving Repr

/-- The `metadata.name = getDownloadFilename({...})` computation performed
after a strategy assigned `download`. -/
def computeAcqName (metadata : ImageMetadata)
    (options : NormalizedDownloadOptions) (mime : String) : String :=
  getDownloadFilename
    (match options.filename with
     | some f => if isNonEmptyStringB f then some f else none
     | none => none)
    (if isNonEmptyStringB metadata.src then some metadata.src else none)
    (if isNonEmptyStringB mime then some mime else none)
    "img" "image"

/-- Final merge for a network download: `mergeMetadata(download, metadata)`
with `download = {blob, mime}` — the download's fields override, the name
just computed into `metadata` survives. -/
def finishNetwork (dl : AcqDL) (metadata : ImageMetadata)
    (options : NormalizedDownloadOptions) : ImageDownloadMetadata :=
  { blob := dl.blob, mime := some dl.mime, src := some metadata.src,
    name := some (computeAcqName metadata options dl.mime),
    extension := metadata.extension }

/-- Final merge for a canvas download: `getImageBlobFromCanvas` already
merged the PRE-assignment metadata into `download`, so a name key captured
there (present exactly when the metadata carried a name) overrides the name
computed afterwards. -/
def finishCanvas (dl : AcqDL) (metadata : ImageMetadata)
    (options : NormalizedDownloadOptions) : ImageDownloadMetadata :=
  { blob := dl.blob, mime := some dl.mime, src := some metadata.src,
    name := match metadata.name with
      | some n => some n
      | none => some (computeAcqName metadata options dl.mime),
    extension := metadata.extension }

/-- Embedding of `imageToBlobHelper`.  The source's failover is broken by a
missing `await`: inside each catch the retry — `downloadFromCanvas(true)`
resp. `downloadFromNetwork(true)` — is fired without `await` or `return`, so
the preferred attempt's promise resolves with `download` still undefined and
the `isNullish(download)` check throws the generic string before the retry's
assignment (which always sits behind at least one further `await`
suspension) can land; a failing retry rethrows into an unhandled promise
rejection.  The first component is therefore the value the caller observes;
the second records the settlement the fired-and-forgotten retry attempt
eventually reaches. -/
def imageToBlobHelper (env : AcqEnv) (metadata : ImageMetadata)
    (options : NormalizedDownloadOptions) :
    Except String ImageDownloadMetadata × List (Except String AcqDL) :=
  if doesPreferNetwork metadata options then
    match env.network with
    | .ok dl => (.ok (finishNetwork dl metadata options), [])
    | .error _ => (.error "Failed to download an image", [env.canvas])
  else
    match env.canvas with
    | .ok dl => (.ok (finishCanvas dl metadata options), [])
    | .error _ => (.error "Failed to download an image", [env.network])

/- ------------------------------------------------------------------ -/
/- Well-formedness of stored keys                                      -/
/- ------------------------------------------------------------------ -/

/-- A well-formed path segment: nonempty, not a dot-navigation segment, and
free of invalid filename and control characters (hence in particular of
slashes and backslashes). -/
def GoodSeg (s : List Char) : Prop :=
  s ≠ [] ∧ s ≠ ['.'] ∧ s ≠ ['.', '.'] ∧
    ∀ c ∈ s, invalidFileChar c = false ∧ controlChar c = false

/-- A well-formed store key: a nonempty '/'-join of well-formed segments,
optionally carrying one trailing slash as a directory marker. -/
def GoodPath (k : String) : Prop :=
  ∃ segs : List (List Char), segs ≠ [] ∧ (∀ s ∈ segs, GoodSeg s) ∧
    (k.data = joinWithChar '/' segs ∨ k.data = joinWithChar '/' segs ++ ['/'])

/-- Store invariant: every key of the file map is well-formed. -/
def StoreInv (st : ArchiveTool) : Prop :=
  ∀ k ∈ keysOf st.files, GoodPath k

end DL

/- ------------------------------------------------------------------ -/
/- Analysis of the decimal rendering                                   -/
/- ------------------------------------------------------------------ -/

namespace DL

theorem isDigit_decDigit (d : Nat) : isDigitChar (decDigit d) = true := by
  unfold decDigit
  split <;> rfl

theorem decDigit_toNat (d : Nat) (h : d < 10) : (decDigit d).toNat = 48 + d := by
  interval_cases d <;> rfl

theorem decReprAux_congr (f₁ : Nat) :
    ∀ (f₂ n : Nat), n < f₁ → n < f₂ → decReprAux f₁ n = decReprAux f₂ n := by
  induction f₁ with
  | zero => intro f₂ n h1 _; omega
  | succ f ih =>
    intro f₂ n h1 h2
    cases f₂ with
    | zero => omega
    | succ g =>
      show decReprAux (f + 1) n = decReprAux (g + 1) n
      unfold decReprAux
      by_cases h : n < 10
      · simp [h]
      · have hdiv : n / 10 < n := Nat.div_lt_self (by omega) (by omega)
        simp only [h, if_false]
        rw [ih g (n / 10) (by omega) (by omega)]

theorem decRepr_small (n : Nat) (h : n < 10) : decRepr n = [decDigit n] := by
  unfold decRepr decReprAux
  simp [h]

theorem decRepr_step (n : Nat) (h : 10 ≤ n) :
    decRepr n = decRepr (n / 10) ++ [decDigit (n % 10)] := by
  have hdiv : n / 10 < n := Nat.div_lt_self (by omega) (by omega)
  unfold decRepr
  conv_lhs => unfold decReprAux
  have hn : ¬ n < 10 := by omega
  simp only [hn, if_false]
  rw [decReprAux_congr n (n / 10 + 1) (n / 10) (by omega) (by omega)]

theorem decRepr_digits (n : Nat) : ∀ c ∈ decRepr n, isDigitChar c = true := by
  induction n using Nat.strong_induction_on with
  | _ n ih =>
    by_cases h : n < 10
    · rw [decRepr_small n h]
      intro c hc
      simp only [List.mem_singleton] at hc
      subst hc
      exact isDigit_decDigit n
    · rw [decRepr_step n (by omega)]
      intro c hc
      rcases List.mem_append.mp hc with h1 | h2
      · exact ih (n / 10) (Nat.div_lt_self (by omega) (by omega)) c h1
      · simp only [List.mem_singleton] at h2
        subst h2
        exact isDigit_decDigit _

theorem decVal_decRepr (n : Nat) : decVal (decRepr n) = n := by
  induction n using Nat.strong_induction_on with
  | _ n ih =>
    by_cases h : n < 10
    · rw [decRepr_small n h]
      simp [decVal, decDigit_toNat n h]
    · have hdiv : n / 10 < n := Nat.div_lt_self (by omega) (by omega)
      rw [decRepr_step n (by omega)]
      unfold decVal at ih ⊢
      rw [List.foldl_append]
      simp only [List.foldl_cons, List.foldl_nil]
      rw [ih (n / 10) hdiv, decDigit_toNat (n % 10) (Nat.mod_lt n (by omega))]
      omega

theorem decRepr_inj {a b : Nat} (h : decRepr a = decRepr b) : a = b := by
  have h2 := congrArg decVal h
  rwa [decVal_decRepr, decVal_decRepr] at h2

theorem decRepr_ne_nil (n : Nat) : decRepr n ≠ [] := by
  by_cases h : n < 10
  · rw [decRepr_small n h]; simp
  · rw [decRepr_step n (by omega)]; simp

/-- Key prefix-freeness engine: a digit string followed by a closing paren
determines the digit string among prefixes. -/
theorem digits_paren_prefix_eq :
    ∀ (x y s t : List Char), (∀ c ∈ x, isDigitChar c = true) →
      (∀ c ∈ y, isDigitChar c = true) →
      (x ++ ')' :: s) <+: (y ++ ')' :: t) → x = y := by
  intro x
  induction x with
  | nil =>
    intro y s t _ hy h
    cases y with
    | nil => rfl
    | cons d y' =>
      exfalso
      simp only [List.nil_append, List.cons_append] at h
      rw [List.cons_prefix_cons] at h
      have hd := hy d (by simp)
      rw [← h.1] at hd
      exact absurd hd (by decide)
  | cons c x' ih =>
    intro y s t hx hy h
    cases y with
    | nil =>
      exfalso
      simp only [List.cons_append, List.nil_append] at h
      rw [List.cons_prefix_cons] at h
      have hc := hx c (by simp)
      rw [h.1] at hc
      exact absurd hc (by decide)
    | cons d y' =>
      simp only [List.cons_append] at h
      rw [List.cons_prefix_cons] at h
      have hrec := ih y' s t (fun a ha => hx a (by simp [ha]))
        (fun a ha => hy a (by simp [ha])) h.2
      rw [h.1, hrec]

theorem mkSuffix_block_prefix {n m : Nat} {r r' : List Char}
    (h : (mkSuffix n ++ r) <+: (mkSuffix m ++ r')) : n = m := by
  simp only [mkSuffix, List.cons_append, List.append_assoc,
    List.singleton_append] at h
  rw [List.cons_prefix_cons] at h
  obtain ⟨-, h⟩ := h
  rw [List.cons_prefix_cons] at h
  obtain ⟨-, h⟩ := h
  exact decRepr_inj
    (digits_paren_prefix_eq _ _ _ _ (decRepr_digits n) (decRepr_digits m) h)

theorem mkSuffix_inj {n m : Nat} (h : mkSuffix n = mkSuffix m) : n = m := by
  have h2 : (mkSuffix n ++ []) <+: (mkSuffix m ++ []) := by
    simp [h]
  exact mkSuffix_block_prefix h2

theorem mkSuffix_eq_concat (n : Nat) :
    mkSuffix n = (' ' :: '(' :: decRepr n) ++ [')'] := by
  simp [mkSuffix]

theorem mkSuffix_getLast (n : Nat) : (mkSuffix n).getLast? = some ')' := by
  rw [mkSuffix_eq_concat, List.getLast?_concat]

theorem mkSuffix_ne_nil (n : Nat) : mkSuffix n ≠ [] := by
  simp [mkSuffix]

/- ------------------------------------------------------------------ -/
/- Analysis of stripTrailing and splitAfterLast                        -/
/- ------------------------------------------------------------------ -/

theorem stripTrailing_eq_self {c : Char} {l : List Char}
    (h : l.getLast? ≠ some c) : stripTrailing c l = l := by
  unfold stripTrailing
  cases hrev : l.reverse with
  | nil =>
    simp [List.reverse_eq_nil_iff.mp hrev]
  | cons a t =>
    have hhead : l.getLast? = some a := by
      rw [← List.head?_reverse, hrev]
      rfl
    have ha : ¬ a = c := fun e => h (by rw [hhead, e])
    rw [List.dropWhile_cons_of_neg (by simpa using ha), ← hrev,
      List.reverse_reverse]

theorem stripTrailing_concat (c : Char) (l : List Char) :
    stripTrailing c (l ++ [c]) = stripTrailing c l := by
  unfold stripTrailing
  rw [List.reverse_append]
  show ((c :: l.reverse).dropWhile _).reverse = _
  rw [List.dropWhile_cons_of_pos (by simp)]

theorem stripTrailing_decomp (c : Char) (l : List Char) :
    ∃ r, l = stripTrailing c l ++ List.replicate r c := by
  refine ⟨(l.reverse.takeWhile (· = c)).length, ?_⟩
  unfold stripTrailing
  have hrep : l.reverse.takeWhile (· = c) =
      List.replicate (l.reverse.takeWhile (· = c)).length c :=
    List.eq_replicate_of_mem fun b hb => by
      simpa using List.mem_takeWhile_imp hb
  conv_lhs =>
    rw [← List.reverse_reverse l,
      ← List.takeWhile_append_dropWhile (· = c) l.reverse]
  rw [List.reverse_append]
  congr 1
  conv_lhs => rw [hrep]
  rw [List.reverse_replicate]

theorem splitAfterLast_join (sep : Char) (l : List Char) :
    (splitAfterLast sep l).1 ++ (splitAfterLast sep l).2 = l := by
  unfold splitAfterLast
  rw [← List.reverse_append, List.takeWhile_append_dropWhile,
    List.reverse_reverse]

theorem splitAfterLast_snd_not_sep (sep : Char) (l : List Char) :
    ∀ c ∈ (splitAfterLast sep l).2, c ≠ sep := by
  unfold splitAfterLast
  intro c hc
  simp only [List.mem_reverse] at hc
  simpa using List.mem_takeWhile_imp hc

theorem splitAfterLast_fst_cases (sep : Char) (l : List Char) :
    (splitAfterLast sep l).1 = [] ∨
      ∃ d, (splitAfterLast sep l).1 = d ++ [sep] := by
  have hfst : (splitAfterLast sep l).1 = (l.reverse.dropWhile (· ≠ sep)).reverse :=
    rfl
  cases hd : l.reverse.dropWhile (· ≠ sep) with
  | nil => left; rw [hfst, hd]; rfl
  | cons a t =>
    right
    have hw := List.head?_dropWhile_not (· ≠ sep) l.reverse
    rw [hd] at hw
    have ha : a = sep := by simpa using hw
    refine ⟨t.reverse, ?_⟩
    rw [hfst, hd, List.reverse_cons, ha]

/- ------------------------------------------------------------------ -/
/- Candidate structure for the getSafePath loop                        -/
/- ------------------------------------------------------------------ -/

theorem fileCandidate_eq_of_dot (bp : List Char) (n : Nat)
    (hA : 2 ≤ ((splitAfterLast '.' (splitAfterLast '/' bp).2).1).length) :
    fileCandidate bp n =
      ((splitAfterLast '/' bp).1 ++
          ((splitAfterLast '.' (splitAfterLast '/' bp).2).1).dropLast) ++
        (mkSuffix n ++
          ('.' :: (splitAfterLast '.' (splitAfterLast '/' bp).2).2)) := by
  unfold fileCandidate
  simp [hA, List.append_assoc]

theorem fileCandidate_eq_no_dot (bp : List Char) (n : Nat)
    (hA : ¬ 2 ≤ ((splitAfterLast '.' (splitAfterLast '/' bp).2).1).length) :
    fileCandidate bp n =
      ((splitAfterLast '/' bp).1 ++ (splitAfterLast '/' bp).2) ++ mkSuffix n := by
  unfold fileCandidate
  simp [hA, List.append_assoc]

theorem dot_decomp (F dp fp : List Char)
    (hdp : (splitAfterLast '.' F).1 = dp) (hfp : (splitAfterLast '.' F).2 = fp)
    (hA : 2 ≤ dp.length) : F = dp.dropLast ++ ('.' :: fp) := by
  rcases splitAfterLast_fst_cases '.' F with h0 | ⟨d, hd⟩
  · rw [h0] at hdp
    rw [← hdp] at hA
    simp at hA
  · have hjoin := splitAfterLast_join '.' F
    rw [hdp, hfp] at hjoin
    rw [hdp] at hd
    rw [← hjoin, hd, List.dropLast_concat, List.append_assoc,
      List.singleton_append]

/-- In file mode the candidates, each extended by a trailing slash, form a
prefix-free family: this is what rules out repeated collisions against a
single stored key. -/
theorem file_candAt_prefixFree (bp : List Char) (i j : Nat)
    (h : (candAt false bp i ++ ['/']) <+: (candAt false bp j ++ ['/'])) :
    i = j := by
  obtain ⟨D, hD⟩ : ∃ x, (splitAfterLast '/' bp).1 = x := ⟨_, rfl⟩
  obtain ⟨F, hF⟩ : ∃ x, (splitAfterLast '/' bp).2 = x := ⟨_, rfl⟩
  obtain ⟨dp, hdp⟩ : ∃ x, (splitAfterLast '.' F).1 = x := ⟨_, rfl⟩
  obtain ⟨fp, hfp⟩ : ∃ x, (splitAfterLast '.' F).2 = x := ⟨_, rfl⟩
  have hbp : D ++ F = bp := by
    rw [← hD, ← hF]
    exact splitAfterLast_join '/' bp
  by_cases hA : 2 ≤ dp.length
  · -- suffix inserted before the extension
    have hFd : F = dp.dropLast ++ ('.' :: fp) := dot_decomp F dp fp hdp hfp hA
    have hnf : ∀ k, candAt false bp (k + 1) ++ ['/'] =
        (D ++ dp.dropLast) ++
          (' ' :: ('(' :: (decRepr (k + 1) ++ (')' :: ('.' :: (fp ++ ['/'])))))) := by
      intro k
      show fileCandidate bp (k + 1) ++ ['/'] = _
      rw [fileCandidate_eq_of_dot bp (k + 1) (by rw [hF, hdp]; exact hA)]
      rw [hF, hdp, hfp, hD]
      simp [mkSuffix, List.append_assoc]
    have hnf0 : candAt false bp 0 ++ ['/'] =
        (D ++ dp.dropLast) ++ ('.' :: (fp ++ ['/'])) := by
      show bp ++ ['/'] = _
      rw [← hbp, hFd]
      simp [List.append_assoc]
    cases i with
    | zero =>
      cases j with
      | zero => rfl
      | succ b =>
        exfalso
        rw [hnf0, hnf b, List.prefix_append_right_inj, List.cons_prefix_cons] at h
        exact absurd h.1 (by decide)
    | succ a =>
      cases j with
      | zero =>
        exfalso
        rw [hnf0, hnf a, List.prefix_append_right_inj, List.cons_prefix_cons] at h
        exact absurd h.1 (by decide)
      | succ b =>
        rw [hnf a, hnf b, List.prefix_append_right_inj] at h
        rw [List.cons_prefix_cons] at h
        obtain ⟨-, h⟩ := h
        rw [List.cons_prefix_cons] at h
        obtain ⟨-, h⟩ := h
        have := decRepr_inj (digits_paren_prefix_eq _ _ _ _
          (decRepr_digits (a + 1)) (decRepr_digits (b + 1)) h)
        omega
  · -- suffix appended at the end of the filename
    have hnf : ∀ k, candAt false bp (k + 1) ++ ['/'] =
        (D ++ F) ++ (' ' :: ('(' :: (decRepr (k + 1) ++ (')' :: ['/'])))) := by
      intro k
      show fileCandidate bp (k + 1) ++ ['/'] = _
      rw [fileCandidate_eq_no_dot bp (k + 1) (by rw [hF, hdp]; exact hA)]
      rw [hF, hD]
      simp [mkSuffix, List.append_assoc]
    have hnf0 : candAt false bp 0 ++ ['/'] = (D ++ F) ++ ['/'] := by
      show bp ++ ['/'] = _
      rw [hbp]
    cases i with
    | zero =>
      cases j with
      | zero => rfl
      | succ b =>
        exfalso
        rw [hnf0, hnf b, List.prefix_append_right_inj, List.cons_prefix_cons] at h
        exact absurd h.1 (by decide)
    | succ a =>
      cases j with
      | zero =>
        exfalso
        rw [hnf0, hnf a, List.prefix_append_right_inj, List.cons_prefix_cons] at h
        exact absurd h.1 (by decide)
      | succ b =>
        rw [hnf a, hnf b, List.prefix_append_right_inj] at h
        rw [List.cons_prefix_cons] at h
        obtain ⟨-, h⟩ := h
        rw [List.cons_prefix_cons] at h
        obtain ⟨-, h⟩ := h
        have := decRepr_inj (digits_paren_prefix_eq _ _ _ _
          (decRepr_digits (a + 1)) (decRepr_digits (b + 1)) h)
        omega

theorem candAt_zero (d : Bool) (bp : List Char) : candAt d bp 0 = bp := rfl

theorem dir_candAt_succ (bp : List Char) (k : Nat) :
    candAt true bp (k + 1) = (stripTrailing '/' bp ++ mkSuffix (k + 1)) ++ ['/'] := by
  show dirCandidate bp (k + 1) = _
  simp [dirCandidate, List.append_assoc]

theorem dir_rtrim_succ (bp : List Char) (k : Nat) :
    stripTrailing '/' (candAt true bp (k + 1)) =
      stripTrailing '/' bp ++ mkSuffix (k + 1) := by
  rw [dir_candAt_succ, stripTrailing_concat, stripTrailing_eq_self]
  rw [List.getLast?_append, mkSuffix_getLast]
  simp

/-- In directory mode, the candidates and their slash-trimmed forms are
pairwise distinct across loop indices. -/
theorem dir_keys_inj (bp : List Char) (i j : Nat)
    (h : candAt true bp i = candAt true bp j ∨
      candAt true bp i = stripTrailing '/' (candAt true bp j) ∨
      stripTrailing '/' (candAt true bp i) = candAt true bp j ∨
      stripTrailing '/' (candAt true bp i) = stripTrailing '/' (candAt true bp j)) :
    i = j := by
  obtain ⟨T, hT⟩ : ∃ x, stripTrailing '/' bp = x := ⟨_, rfl⟩
  obtain ⟨r, hr⟩ := stripTrailing_decomp '/' bp
  rw [hT] at hr
  have hc0 : candAt true bp 0 = T ++ List.replicate r '/' := by
    rw [candAt_zero]; exact hr
  have hr0 : stripTrailing '/' (candAt true bp 0) = T := by
    rw [candAt_zero, hT]
  have hcS : ∀ k, candAt true bp (k + 1) = T ++ (mkSuffix (k + 1) ++ ['/']) := by
    intro k
    rw [dir_candAt_succ, hT, List.append_assoc]
  have hrS : ∀ k, stripTrailing '/' (candAt true bp (k + 1)) = T ++ mkSuffix (k + 1) := by
    intro k
    rw [dir_rtrim_succ, hT]
  have hrep1 : ∀ b, ¬ (List.replicate r '/' = mkSuffix (b + 1) ++ ['/']) := by
    intro b hb
    cases r with
    | zero => simp [mkSuffix] at hb
    | succ r' =>
      rw [List.replicate_succ] at hb
      simp [mkSuffix] at hb
  have hrep2 : ∀ b, ¬ (List.replicate r '/' = mkSuffix (b + 1)) := by
    intro b hb
    cases r with
    | zero => simp [mkSuffix] at hb
    | succ r' =>
      rw [List.replicate_succ] at hb
      simp [mkSuffix] at hb
  have hlast : ∀ a b : Nat, ¬ (mkSuffix a ++ ['/'] = mkSuffix b) := by
    intro a b hb
    have h2 := congrArg List.getLast? hb
    rw [List.getLast?_concat, mkSuffix_getLast] at h2
    exact absurd h2 (by decide)
  cases i with
  | zero =>
    cases j with
    | zero => rfl
    | succ b =>
      exfalso
      rcases h with h | h | h | h
      · rw [hc0, hcS] at h
        exact hrep1 b (List.append_cancel_left h)
      · rw [hc0, hrS] at h
        exact hrep2 b (List.append_cancel_left h)
      · rw [hr0, hcS] at h
        have := List.self_eq_append_right.mp h
        simp [mkSuffix] at this
      · rw [hr0, hrS] at h
        have := List.self_eq_append_right.mp h
        exact mkSuffix_ne_nil (b + 1) this
  | succ a =>
    cases j with
    | zero =>
      exfalso
      rcases h with h | h | h | h
      · rw [hc0, hcS] at h
        exact hrep1 a (List.append_cancel_left h.symm)
      · rw [hcS, hr0] at h
        have := List.self_eq_append_right.mp h.symm
        simp [mkSuffix] at this
      · rw [hrS, hc0] at h
        exact hrep2 a (List.append_cancel_left h.symm)
      · rw [hrS, hr0] at h
        have := List.self_eq_append_right.mp h.symm
        exact mkSuffix_ne_nil (a + 1) this
    | succ b =>
      rcases h with h | h | h | h
      · rw [hcS, hcS] at h
        have h2 := List.append_cancel_left h
        have h3 := List.append_cancel_right h2
        have := mkSuffix_inj h3
        omega
      · rw [hcS, hrS] at h
        exact absurd (List.append_cancel_left h) (hlast (a + 1) (b + 1))
      · rw [hrS, hcS] at h
        exact absurd (List.append_cancel_left h.symm) (hlast (b + 1) (a + 1))
      · rw [hrS, hrS] at h
        have := mkSuffix_inj (List.append_cancel_left h)
        omega

/- ------------------------------------------------------------------ -/
/- Termination of the getSafePath loop (pigeonhole over keys)          -/
/- ------------------------------------------------------------------ -/

/-- Every colliding candidate owes its collision to some stored key. -/
theorem collide_witness (files : List (String × Blob)) (ign : List String)
    (isDir : Bool) (c : List Char)
    (hc : collides files ign isDir c = true) :
    ∃ k ∈ keysOf files,
      k.data = c ∨ (isDir = true ∧ k.data = stripTrailing '/' c) ∨
        (isDir = false ∧ (c ++ ['/']) <+: k.data) := by
  unfold collides at hc
  rw [Bool.or_eq_true] at hc
  rcases hc with hc | hc
  · exact ⟨⟨c⟩, List.elem_iff.mp hc, Or.inl rfl⟩
  · cases isDir with
    | true =>
      rw [if_pos rfl] at hc
      exact ⟨⟨stripTrailing '/' c⟩, List.elem_iff.mp hc, Or.inr (Or.inl ⟨rfl, rfl⟩)⟩
    | false =>
      rw [if_neg (by simp)] at hc
      rw [List.any_eq_true] at hc
      obtain ⟨k, hk, hkp⟩ := hc
      rw [Bool.and_eq_true] at hkp
      exact ⟨k, hk, Or.inr (Or.inr ⟨rfl, List.isPrefixOf_iff_prefix.mp hkp.2⟩)⟩

/-- Two distinct loop indices cannot owe their collisions to the same key. -/
theorem collide_witness_inj (bp : List Char) (isDir : Bool) (k : String)
    (x y : Nat)
    (hx : k.data = candAt isDir bp x ∨
      (isDir = true ∧ k.data = stripTrailing '/' (candAt isDir bp x)) ∨
      (isDir = false ∧ (candAt isDir bp x ++ ['/']) <+: k.data))
    (hy : k.data = candAt isDir bp y ∨
      (isDir = true ∧ k.data = stripTrailing '/' (candAt isDir bp y)) ∨
      (isDir = false ∧ (candAt isDir bp y ++ ['/']) <+: k.data)) :
    x = y := by
  cases isDir with
  | true =>
    apply dir_keys_inj bp x y
    rcases hx with h1 | ⟨-, h1⟩ | ⟨hcon, -⟩
    · rcases hy with h2 | ⟨-, h2⟩ | ⟨hcon, -⟩
      · exact Or.inl (h1.symm.trans h2)
      · exact Or.inr (Or.inl (h1.symm.trans h2))
      · exact absurd hcon (by simp)
    · rcases hy with h2 | ⟨-, h2⟩ | ⟨hcon, -⟩
      · exact Or.inr (Or.inr (Or.inl (h1.symm.trans h2)))
      · exact Or.inr (Or.inr (Or.inr (h1.symm.trans h2)))
      · exact absurd hcon (by simp)
    · exact absurd hcon (by simp)
  | false =>
    rcases hx with h1 | ⟨hcon, -⟩ | ⟨-, h1⟩
    · rcases hy with h2 | ⟨hcon, -⟩ | ⟨-, h2⟩
      · apply file_candAt_prefixFree bp x y
        rw [h1.symm.trans h2]
      · exact absurd hcon (by simp)
      · -- candAt y ++ / is a prefix of k.data = candAt x
        have h3 : (candAt false bp y ++ ['/']) <+: (candAt false bp x ++ ['/']) := by
          rw [← h1]
          exact h2.trans (List.prefix_append k.data ['/'])
        exact (file_candAt_prefixFree bp y x h3).symm
    · exact absurd hcon (by simp)
    · rcases hy with h2 | ⟨hcon, -⟩ | ⟨-, h2⟩
      · have h3 : (candAt false bp x ++ ['/']) <+: (candAt false bp y ++ ['/']) := by
          rw [← h2]
          exact h1.trans (List.prefix_append k.data ['/'])
        exact file_candAt_prefixFree bp x y h3
      · exact absurd hcon (by simp)
      · rcases List.prefix_or_prefix_of_prefix h1 h2 with h3 | h3
        · exact file_candAt_prefixFree bp x y h3
        · exact (file_candAt_prefixFree bp y x h3).symm

/-- Pigeonhole: among the first `files.length + 1` candidates some candidate
is collision-free, because each colliding index consumes a distinct key. -/
theorem exists_noncollide (files : List (String × Blob)) (ign : List String)
    (isDir : Bool) (bp : List Char) :
    ∃ j, j ≤ files.length ∧
      collides files ign isDir (candAt isDir bp j) = false := by
  by_contra hall
  push_neg at hall
  have hcol : ∀ j, j ≤ files.length →
      collides files ign isDir (candAt isDir bp j) = true := by
    intro j hj
    have hne := hall j hj
    cases hcase : collides files ign isDir (candAt isDir bp j)
    · exact absurd hcase hne
    · rfl
  have hwit : ∀ j, ∃ k : String, j ≤ files.length →
      k ∈ keysOf files ∧
        (k.data = candAt isDir bp j ∨
          (isDir = true ∧ k.data = stripTrailing '/' (candAt isDir bp j)) ∨
          (isDir = false ∧ (candAt isDir bp j ++ ['/']) <+: k.data)) := by
    intro j
    by_cases hj : j ≤ files.length
    · obtain ⟨k, hk, hkw⟩ := collide_witness files ign isDir _ (hcol j hj)
      exact ⟨k, fun _ => ⟨hk, hkw⟩⟩
    · exact ⟨"", fun hcon => absurd hcon hj⟩
  choose f hf using hwit
  have hcard : ((keysOf files).toFinset).card <
      (Finset.range (files.length + 1)).card := by
    have h1 : ((keysOf files).toFinset).card ≤ (keysOf files).length :=
      List.toFinset_card_le _
    have h2 : (keysOf files).length = files.length := by simp [keysOf]
    rw [Finset.card_range]
    omega
  have hmaps : ∀ a ∈ Finset.range (files.length + 1),
      f a ∈ (keysOf files).toFinset := by
    intro a ha
    rw [Finset.mem_range] at ha
    rw [List.mem_toFinset]
    exact (hf a (by omega)).1
  obtain ⟨x, hx, y, hy, hxy, hfeq⟩ :=
    Finset.exists_ne_map_eq_of_card_lt_of_maps_to hcard hmaps
  rw [Finset.mem_range] at hx hy
  apply hxy
  have hwx := (hf x (by omega)).2
  have hwy := (hf y (by omega)).2
  rw [hfeq] at hwx
  exact collide_witness_inj bp isDir (f y) x y hwx hwy

/-- Correctness of the fueled retry loop: when some candidate within reach of
the fuel is collision-free, the loop returns the first collision-free
candidate. -/
theorem getSafePathAux_run (files : List (String × Blob)) (ign : List String)
    (isDir : Bool) (bp : List Char) :
    ∀ (fuel j₀ : Nat),
      (∃ j, j₀ ≤ j ∧ j < j₀ + fuel ∧
        collides files ign isDir (candAt isDir bp j) = false) →
      ∃ jm, j₀ ≤ jm ∧ collides files ign isDir (candAt isDir bp jm) = false ∧
        getSafePathAux files ign isDir bp fuel (j₀ + 1) (candAt isDir bp j₀) =
          some (candAt isDir bp jm) := by
  intro fuel
  induction fuel with
  | zero =>
    intro j₀ hex
    obtain ⟨j, hj1, hj2, -⟩ := hex
    omega
  | succ fu ih =>
    intro j₀ hex
    cases hcc : collides files ign isDir (candAt isDir bp j₀) with
    | false =>
      refine ⟨j₀, Nat.le_refl _, hcc, ?_⟩
      conv_lhs => unfold getSafePathAux
      rw [hcc, if_neg (by simp)]
    | true =>
      obtain ⟨j, hj1, hj2, hj3⟩ := hex
      have hjne : j ≠ j₀ := fun e => by
        rw [e, hcc] at hj3
        exact Bool.noConfusion hj3
      obtain ⟨jm, hm1, hm2, hm3⟩ := ih (j₀ + 1) ⟨j, by omega, by omega, hj3⟩
      refine ⟨jm, by omega, hm2, ?_⟩
      conv_lhs => unfold getSafePathAux
      rw [hcc, if_pos rfl]
      have hcand : candAt isDir bp (j₀ + 1) = nextCandidate isDir bp (j₀ + 1) := rfl
      rw [hcand] at hm3
      exact hm3

/-- Unpacking of a collision-free loop exit into the individual guarantees. -/
theorem collides_false_parts (files : List (String × Blob)) (ign : List String)
    (isDir : Bool) (c : List Char)
    (h : collides files ign isDir c = false) :
    (⟨c⟩ : String) ∉ keysOf files ∧
      (isDir = true → (⟨stripTrailing '/' c⟩ : String) ∉ keysOf files) ∧
      (isDir = false → ∀ k ∈ keysOf files, ign.contains k = false →
        ¬ (c ++ ['/']) <+: k.data) := by
  unfold collides at h
  rw [Bool.or_eq_false_iff] at h
  obtain ⟨h1, h2⟩ := h
  refine ⟨?_, ?_, ?_⟩
  · intro hm
    have ht : (keysOf files).contains ⟨c⟩ = true := List.elem_iff.mpr hm
    rw [h1] at ht
    exact Bool.noConfusion ht
  · intro hd hm
    rw [hd, if_pos rfl] at h2
    have ht : (keysOf files).contains ⟨stripTrailing '/' c⟩ = true :=
      List.elem_iff.mpr hm
    rw [h2] at ht
    exact Bool.noConfusion ht
  · intro hd k hk hig hpre
    rw [hd, if_neg (by simp)] at h2
    have hfalse : ¬ ((!ign.contains k) && (c ++ ['/']).isPrefixOf k.data) = true := by
      intro htrue
      have hany : (keysOf files).any
          (fun k => (!ign.contains k) && (c ++ ['/']).isPrefixOf k.data) = true :=
        List.any_eq_true.mpr ⟨k, hk, htrue⟩
      rw [h2] at hany
      exact Bool.noConfusion hany
    apply hfalse
    rw [Bool.and_eq_true]
    refine ⟨by rw [hig]; rfl, List.isPrefixOf_iff_prefix.mpr hpre⟩

end DL

/- ------------------------------------------------------------------ -/
/- Claim C9                                                            -/
/- ------------------------------------------------------------------ -/

/-- C9 (counterexample): the claim states that
sanitizeFilepath "a//b/../c.png" = "a/c.png"; in fact the code drops the ".."
segment instead of resolving it, and the result is "a/b/c.png". -/
theorem c9_counterexample : DL.sanitizeFilepath "a//b/../c.png" ≠ "a/c.png" := by
  decide

/-- C9 (amended): sanitizeFilepath applied to "a//b/../c.png" returns
"a/b/c.png" — the empty and ".." segments are dropped (not resolved), and the
remaining segments are rejoined. -/
theorem c9_amended_value : DL.sanitizeFilepath "a//b/../c.png" = "a/b/c.png" := by
  decide

/- ------------------------------------------------------------------ -/
/- Claim C5                                                            -/
/- ------------------------------------------------------------------ -/

/-- C5 (evaluation at the failing input): `addFile` discards the cached
container, but `deleteFile` and `renameFile` mutate the file map while
leaving the previously built container in place, so the next serialization
returns the stale container (still holding the deleted entry). -/
theorem c5_cache_survives_delete_and_rename :
    let b : DL.Blob := ⟨[1]⟩
    let st := ((DL.ArchiveTool.init.addFile "a.png" b).touchArchive)
    (st.deleteFile "a.png" true).files = [] ∧
      (st.deleteFile "a.png" true).archive = some [("a.png", b)] ∧
      (st.renameFile "a.png" "b.png").files = [("b.png", b)] ∧
      (st.renameFile "a.png" "b.png").archive = some [("a.png", b)] ∧
      (st.addFile "c.png" b).archive = none := by
  decide

/- ------------------------------------------------------------------ -/
/- Claim C1                                                            -/
/- ------------------------------------------------------------------ -/

/-- C1: for every path p already present as a key of the store, getSafePath
(with the default empty ignore list) returns a path r different from p that
is not a key; when the sanitized base path is a directory (trailing slash)
the slash-trimmed form of r is not a key either, and when it is a file path
no existing key starts with r plus "/"; moreover r is the sanitized base
path or a candidate carrying the appended " (n)" suffix with n ≥ 1,
incremented until unique. -/
theorem c1_getSafePath_collision_free (st : DL.ArchiveTool) (p : String)
    (hp : p ∈ DL.keysOf st.files) :
    ∃ r : String, st.getSafePath p [] = some r ∧
      r ∉ DL.keysOf st.files ∧ r ≠ p ∧
      ((DL.sanitizeFilepath p).data.getLast? = some '/' →
        (⟨DL.stripTrailing '/' r.data⟩ : String) ∉ DL.keysOf st.files) ∧
      (¬ (DL.sanitizeFilepath p).data.getLast? = some '/' →
        ∀ k ∈ DL.keysOf st.files, ¬ (r.data ++ ['/']) <+: k.data) ∧
      (r.data = (DL.sanitizeFilepath p).data ∨
        ∃ n, 1 ≤ n ∧ r.data =
          DL.nextCandidate
            (decide ((DL.sanitizeFilepath p).data.getLast? = some '/'))
            (DL.sanitizeFilepath p).data n) := by
  obtain ⟨j, hj, hcol⟩ := DL.exists_noncollide st.files []
    (decide ((DL.sanitizeFilepath p).data.getLast? = some '/'))
    (DL.sanitizeFilepath p).data
  obtain ⟨jm, -, hcf, hrun⟩ := DL.getSafePathAux_run st.files []
    (decide ((DL.sanitizeFilepath p).data.getLast? = some '/'))
    (DL.sanitizeFilepath p).data (st.files.length + 1) 0
    ⟨j, Nat.zero_le j, by omega, hcol⟩
  obtain ⟨hnk, hdir, hfile⟩ := DL.collides_false_parts st.files []
    (decide ((DL.sanitizeFilepath p).data.getLast? = some '/')) _ hcf
  refine ⟨⟨DL.candAt (decide ((DL.sanitizeFilepath p).data.getLast? = some '/'))
      (DL.sanitizeFilepath p).data jm⟩, ?_, hnk, ?_, ?_, ?_, ?_⟩
  · show (DL.getSafePathAux st.files []
        (decide ((DL.sanitizeFilepath p).data.getLast? = some '/'))
        (DL.sanitizeFilepath p).data (st.files.length + 1) 1
        (DL.sanitizeFilepath p).data).map (fun l => (⟨l⟩ : String)) = _
    have hrun2 : DL.getSafePathAux st.files []
        (decide ((DL.sanitizeFilepath p).data.getLast? = some '/'))
        (DL.sanitizeFilepath p).data (st.files.length + 1) 1
        (DL.sanitizeFilepath p).data =
        some (DL.candAt
          (decide ((DL.sanitizeFilepath p).data.getLast? = some '/'))
          (DL.sanitizeFilepath p).data jm) := hrun
    rw [hrun2]
    rfl
  · intro he
    rw [he] at hnk
    exact hnk hp
  · intro hdir'
    exact hdir (decide_eq_true hdir')
  · intro hfile' k hk hpre
    exact hfile (decide_eq_false hfile') k hk rfl hpre
  · cases jm with
    | zero => exact Or.inl rfl
    | succ n => exact Or.inr ⟨n + 1, by omega, rfl⟩

/-- C1 (witness): the theorem applied to a concrete one-entry store whose key
"a.png" is re-requested. -/
theorem c1_getSafePath_witness :
    "a.png" ∈ DL.keysOf (DL.ArchiveTool.mk "archive"
        [("a.png", ⟨[0]⟩)] none 0).files ∧
      (∃ r : String,
        (DL.ArchiveTool.mk "archive" [("a.png", ⟨[0]⟩)] none 0).getSafePath
            "a.png" [] = some r ∧
          r ∉ DL.keysOf (DL.ArchiveTool.mk "archive"
            [("a.png", ⟨[0]⟩)] none 0).files ∧
          r ≠ "a.png" ∧
          ((DL.sanitizeFilepath "a.png").data.getLast? = some '/' →
            (⟨DL.stripTrailing '/' r.data⟩ : String) ∉ DL.keysOf
              (DL.ArchiveTool.mk "archive" [("a.png", ⟨[0]⟩)] none 0).files) ∧
          (¬ (DL.sanitizeFilepath "a.png").data.getLast? = some '/' →
            ∀ k ∈ DL.keysOf (DL.ArchiveTool.mk "archive"
                [("a.png", ⟨[0]⟩)] none 0).files,
              ¬ (r.data ++ ['/']) <+: k.data) ∧
          (r.data = (DL.sanitizeFilepath "a.png").data ∨
            ∃ n, 1 ≤ n ∧ r.data =
              DL.nextCandidate
                (decide ((DL.sanitizeFilepath "a.png").data.getLast? = some '/'))
                (DL.sanitizeFilepath "a.png").data n)) :=
  ⟨by decide,
    c1_getSafePath_collision_free
      (DL.ArchiveTool.mk "archive" [("a.png", ⟨[0]⟩)] none 0) "a.png" (by decide)⟩

/- ------------------------------------------------------------------ -/
/- Claim C4                                                            -/
/- ------------------------------------------------------------------ -/

/-- C4 (amended): after deleteDirectory, every public method that asserts
validity — rename, reparent, deleteDirectory, addFile, addTextFile,
renameFile, deleteFile, getSubdirectory, downloadSubdirectory and the
parent/path/files accessors — fails with the disposed-handle error; the three
methods that skip the validity check (addImage, addImages, download) still
fail on the detached handle, but with a null-parent TypeError rather than the
disposed-handle error. -/
theorem c4_disposed_handle_guards (h : DL.SubdirectoryHandle)
    (hdel : h.isDeleted = true) :
    h.parentGet = .error (.disposed h.path) ∧
    h.pathGet = .error (.disposed h.path) ∧
    h.filesGet = .error (.disposed h.path) ∧
    (∀ p r, h.rename p r = .error (.disposed h.path)) ∧
    (∀ a np, h.reparent a np = .error (.disposed h.path)) ∧
    (∀ r, h.deleteDirectory r = .error (.disposed h.path)) ∧
    (∀ rp b, h.addFile rp b = .error (.disposed h.path)) ∧
    (∀ rp t, h.addTextFile rp t = .error (.disposed h.path)) ∧
    (∀ o n, h.renameFile o n = .error (.disposed h.path)) ∧
    (∀ rp, h.getSubdirectory rp = .error (.disposed h.path)) ∧
    (∀ rp, h.downloadSubdirectory rp = .error (.disposed h.path)) ∧
    (∀ rp, h.deleteFile rp = .error (.disposed h.path)) ∧
    (h.parent = none →
      h.addImage = .error .nullParent ∧
      h.addImages = .error .nullParent ∧
      h.download = .error .nullParent) := by
  have hch : h.checkValidHandle = .error (.disposed h.path) := by
    unfold DL.SubdirectoryHandle.checkValidHandle
    rw [hdel, if_pos rfl]
  refine ⟨?_, ?_, ?_, ?_, ?_, ?_, ?_, ?_, ?_, ?_, ?_, ?_, ?_⟩
  · show (do h.checkValidHandle; Except.ok h.parent) = _
    rw [hch]; rfl
  · show (do h.checkValidHandle; Except.ok h.path) = _
    rw [hch]; rfl
  · unfold DL.SubdirectoryHandle.filesGet
    rw [hch]; rfl
  · intro p r
    unfold DL.SubdirectoryHandle.rename
    rw [hch]; rfl
  · intro a np
    unfold DL.SubdirectoryHandle.reparent
    rw [hch]; rfl
  · intro r
    unfold DL.SubdirectoryHandle.deleteDirectory
    rw [hch]; rfl
  · intro rp b
    unfold DL.SubdirectoryHandle.addFile
    rw [hch]; rfl
  · intro rp t
    unfold DL.SubdirectoryHandle.addTextFile
    rw [hch]; rfl
  · intro o n
    unfold DL.SubdirectoryHandle.renameFile
    rw [hch]; rfl
  · intro rp
    unfold DL.SubdirectoryHandle.getSubdirectory
    rw [hch]; rfl
  · intro rp
    unfold DL.SubdirectoryHandle.downloadSubdirectory
    rw [hch]; rfl
  · intro rp
    unfold DL.SubdirectoryHandle.deleteFile
    rw [hch]; rfl
  · intro hpn
    have hup : h.useParent = .error .nullParent := by
      unfold DL.SubdirectoryHandle.useParent
      rw [hpn]
    refine ⟨?_, ?_, ?_⟩
    · unfold DL.SubdirectoryHandle.addImage
      rw [hup]; rfl
    · unfold DL.SubdirectoryHandle.addImages
      rw [hup]; rfl
    · unfold DL.SubdirectoryHandle.download
      rw [hup]; rfl

/-- C4 (counterexample): a handle obtained from a store and then deleted; the
subsequent addImage call fails, but with the null-parent TypeError, not the
disposed-handle error the claim promises for addImage, addImages and
download. -/
theorem c4_counterexample :
    DL.ArchiveTool.init.getSubdirectory "d" =
        some ⟨"d", some DL.ArchiveTool.init, false⟩ ∧
      (DL.SubdirectoryHandle.deleteDirectory
          ⟨"d", some DL.ArchiveTool.init, false⟩ true) =
        .ok (some DL.ArchiveTool.init, ⟨"d", none, true⟩) ∧
      DL.SubdirectoryHandle.addImage ⟨"d", none, true⟩ =
        .error .nullParent ∧
      DL.SubdirectoryHandle.addImages ⟨"d", none, true⟩ =
        .error .nullParent ∧
      DL.SubdirectoryHandle.download ⟨"d", none, true⟩ =
        .error .nullParent ∧
      (DL.SubErr.nullParent ≠ DL.SubErr.disposed "d") := by
  refine ⟨rfl, rfl, rfl, rfl, rfl, by decide⟩

/-- C4 (witness): the guard theorem applied to a concrete deleted handle. -/
theorem c4_witness :
    (DL.SubdirectoryHandle.mk "d" none true).isDeleted = true ∧
      (DL.SubdirectoryHandle.mk "d" none true).pathGet =
        .error (.disposed "d") :=
  ⟨rfl, (c4_disposed_handle_guards ⟨"d", none, true⟩ rfl).2.1⟩

/- ------------------------------------------------------------------ -/
/- Analysis of the batch scheduler                                     -/
/- ------------------------------------------------------------------ -/

namespace DL

theorem mapIdxFrom_length {α β : Type} (f : α → Nat → β) :
    ∀ (k : Nat) (l : List α), (mapIdxFrom f k l).length = l.length := by
  intro k l
  induction l generalizing k with
  | nil => rfl
  | cons a as ih => simp [mapIdxFrom, ih]

theorem mapIdxFrom_getElem {α β : Type} (f : α → Nat → β) :
    ∀ (k : Nat) (l : List α) (j : Nat) (item : α), l[j]? = some item →
      (mapIdxFrom f k l)[j]? = some (f item (k + j)) := by
  intro k l
  induction l generalizing k with
  | nil => intro j item hj; simp at hj
  | cons a as ih =>
    intro j item hj
    cases j with
    | zero =>
      simp only [List.getElem?_cons_zero, Option.some.injEq] at hj
      subst hj
      simp [mapIdxFrom]
    | succ j' =>
      simp only [List.getElem?_cons_succ] at hj
      rw [show mapIdxFrom f k (a :: as) = f a k :: mapIdxFrom f (k + 1) as from rfl]
      simp only [List.getElem?_cons_succ]
      rw [ih (k + 1) j' item hj, show k + (j' + 1) = k + 1 + j' from by omega]

theorem bdfeAux_spec {α ε ρ : Type} (cb : α → Nat → List α → Except ε ρ)
    (bs : Nat) (hbs : 1 ≤ bs) :
    ∀ (fuel : Nat) (remaining : List α) (i : Nat), remaining.length < fuel →
      (bdfeAux cb bs fuel remaining i).1.length = remaining.length ∧
        (∀ j item, remaining[j]? = some item →
          (bdfeAux cb bs fuel remaining i).1[j]? =
            some (cb item (i + j) ((remaining.drop (bs * (j / bs))).take bs))) ∧
        (bdfeAux cb bs fuel remaining i).2 = (remaining.length - 1) / bs := by
  intro fuel
  induction fuel with
  | zero => intro remaining i h; omega
  | succ fu ih =>
    intro remaining i h
    cases remaining with
    | nil =>
      refine ⟨rfl, ?_, ?_⟩
      · intro j item hj
        simp at hj
      · show (0 : Nat) = (0 - 1) / bs
        simp
    | cons a rem =>
      have hlen_rest : ((a :: rem).drop bs).length < fu := by
        rw [List.length_drop]
        simp only [List.length_cons] at h ⊢
        omega
      obtain ⟨ihlen, ihidx, ihdel⟩ := ih ((a :: rem).drop bs) (i + bs) hlen_rest
      have hstep : bdfeAux cb bs (fu + 1) (a :: rem) i =
          (mapIdxFrom (fun item idx => cb item (i + idx) ((a :: rem).take bs)) 0
              ((a :: rem).take bs) ++
              (bdfeAux cb bs fu ((a :: rem).drop bs) (i + bs)).1,
            (if bs < (a :: rem).length then 1 else 0) +
              (bdfeAux cb bs fu ((a :: rem).drop bs) (i + bs)).2) := rfl
      rw [hstep]
      refine ⟨?_, ?_, ?_⟩
      · simp only [List.length_append, mapIdxFrom_length, List.length_take,
          ihlen, List.length_drop, List.length_cons]
        omega
      · intro j item hj
        have hjlen : j < (a :: rem).length := by
          by_contra hc
          push_neg at hc
          rw [List.getElem?_eq_none hc] at hj
          exact Option.noConfusion hj
        by_cases hjb : j < bs
        · have hslice_item : ((a :: rem).take bs)[j]? = some item := by
            rw [List.getElem?_take, if_pos hjb]
            exact hj
          have hleft := mapIdxFrom_getElem
            (fun item idx => cb item (i + idx) ((a :: rem).take bs)) 0
            ((a :: rem).take bs) j item hslice_item
          rw [List.getElem?_append, if_pos (by
            rw [mapIdxFrom_length, List.length_take]
            omega)]
          rw [hleft]
          have hdiv0 : j / bs = 0 := Nat.div_eq_of_lt hjb
          rw [hdiv0, Nat.mul_zero, List.drop_zero]
          simp
        · push_neg at hjb
          have hminbs : (mapIdxFrom
              (fun item idx => cb item (i + idx) ((a :: rem).take bs)) 0
              ((a :: rem).take bs)).length = bs := by
            rw [mapIdxFrom_length, List.length_take]
            omega
          rw [List.getElem?_append, if_neg (by rw [hminbs]; omega), hminbs]
          have hrest_item : ((a :: rem).drop bs)[j - bs]? = some item := by
            rw [List.getElem?_drop, show bs + (j - bs) = j from by omega]
            exact hj
          rw [ihidx (j - bs) item hrest_item]
          rw [show i + bs + (j - bs) = i + j from by omega]
          rw [List.drop_drop]
          rw [show bs + bs * ((j - bs) / bs) = bs * (j / bs) from by
            have hdiv := Nat.div_eq_sub_div (show 0 < bs by omega) hjb
            rw [hdiv, Nat.mul_succ]
            omega]
      · by_cases hb : bs < (a :: rem).length
        · rw [if_pos hb, ihdel, List.length_drop]
          rw [show (a :: rem).length - bs - 1 = (a :: rem).length - 1 - bs from by
            omega]
          have hdiv := Nat.div_eq_sub_div (show 0 < bs by omega)
            (show bs ≤ (a :: rem).length - 1 by
              simp only [List.length_cons] at hb ⊢
              omega)
          omega
        · push_neg at hb
          have h3 : (a :: rem).length - bs = 0 := by
            simp only [List.length_cons] at hb ⊢
            omega
          rw [if_neg (by omega), ihdel, List.length_drop, h3]
          have h4 : ((a :: rem).length - 1) / bs = 0 := Nat.div_eq_of_lt (by
            simp only [List.length_cons] at hb ⊢
            omega)
          rw [h4]
          simp

end DL

/- ------------------------------------------------------------------ -/
/- Claim C3                                                            -/
/- ------------------------------------------------------------------ -/

/-- C3 (amended): for every input list and batchSize ≥ 1, batchDelayForEach
yields exactly one settled result per input item in original input order:
result j is the callback applied to item j with its original index and with
the CONTAINING SLICE (not the full input collection) visible as the third
argument; each outcome is captured as a settled value or rejection so no
member aborts its siblings or later slices; and exactly one delay suspension
occurs after every slice except the last ((length - 1) / batchSize in
total). -/
theorem c3_batchDelayForEach_amended {α ε ρ : Type} (array : List α)
    (cb : α → Nat → List α → Except ε ρ) (delayMS batchSize : Nat)
    (hbs : 1 ≤ batchSize) (results : List (Except ε ρ)) (delays : Nat)
    (hout : DL.batchDelayForEach array cb delayMS batchSize = (results, delays)) :
    results.length = array.length ∧
      (∀ j item, array[j]? = some item →
        results[j]? = some (cb item j
          ((array.drop (batchSize * (j / batchSize))).take batchSize))) ∧
      delays = (array.length - 1) / batchSize := by
  obtain ⟨h1, h2, h3⟩ := DL.bdfeAux_spec cb batchSize hbs (array.length + 1)
    array 0 (by omega)
  have hdef : DL.batchDelayForEach array cb delayMS batchSize =
      DL.bdfeAux cb batchSize (array.length + 1) array 0 := rfl
  rw [hdef] at hout
  rw [hout] at h1 h2 h3
  refine ⟨h1, ?_, h3⟩
  intro j item hj
  have h4 := h2 j item hj
  rwa [Nat.zero_add] at h4

/-- C3 (counterexample): with a callback that returns its third argument, the
sixth result of batching [1..7] with batchSize 5 is the slice [6, 7], not the
full input collection — refuting the claim that the full collection is
visible as the third argument. -/
theorem c3_counterexample :
    ((DL.batchDelayForEach [1, 2, 3, 4, 5, 6, 7]
        (fun _ _ arr => (Except.ok arr : Except Unit (List Nat))) 0 5).1)[5]? =
        some (Except.ok [6, 7]) ∧
      ((DL.batchDelayForEach [1, 2, 3, 4, 5, 6, 7]
        (fun _ _ arr => (Except.ok arr : Except Unit (List Nat))) 0 5).1)[0]? =
        some (Except.ok [1, 2, 3, 4, 5]) ∧
      ([6, 7] : List Nat) ≠ [1, 2, 3, 4, 5, 6, 7] := by
  refine ⟨rfl, rfl, by decide⟩

/-- C3 (witness): the amended theorem applied to a concrete batch run. -/
theorem c3_witness :
    (1 ≤ 2) ∧
      ((DL.batchDelayForEach [10, 20, 30]
          (fun x i _ => (Except.ok (x + i) : Except Unit Nat)) 7 2).1.length = 3 ∧
        (∀ (j : Nat) (item : Nat), ([10, 20, 30] : List Nat)[j]? = some item →
          ((DL.batchDelayForEach [10, 20, 30]
              (fun x i _ => (Except.ok (x + i) : Except Unit Nat)) 7 2).1)[j]? =
            some (Except.ok (item + j))) ∧
        (DL.batchDelayForEach [10, 20, 30]
            (fun x i _ => (Except.ok (x + i) : Except Unit Nat)) 7 2).2 =
          (3 - 1) / 2) := by
  have h := c3_batchDelayForEach_amended [10, 20, 30]
    (fun x i _ => (Except.ok (x + i) : Except Unit Nat)) 7 2 (by decide)
    (DL.batchDelayForEach [10, 20, 30]
      (fun x i _ => (Except.ok (x + i) : Except Unit Nat)) 7 2).1
    (DL.batchDelayForEach [10, 20, 30]
      (fun x i _ => (Except.ok (x + i) : Except Unit Nat)) 7 2).2 rfl
  refine ⟨by decide, h.1, ?_, h.2.2⟩
  intro j item hj
  exact h.2.1 j item hj


/- ------------------------------------------------------------------ -/
/- Claim C7                                                            -/
/- ------------------------------------------------------------------ -/

/-- Every failing environment makes the re-encoder fall back to the original
blob. -/
theorem convertBlobToFormat_fallback (env : DL.ConvEnv) (b : DL.Blob)
    (t : String)
    (h : env.bitmapDecode = false ∨ env.ctx2d = false ∨ env.encodeResult = none) :
    DL.convertBlobToFormat env b t = b := by
  by_cases ht : t = ""
  · simp [DL.convertBlobToFormat, ht]
  · rcases env with ⟨bd, cx, il, er⟩
    rcases h with h | h | h
    · subst h
      simp [DL.convertBlobToFormat, ht]
    · subst h
      cases bd <;> cases il <;> simp [DL.convertBlobToFormat, ht]
    · subst h
      cases bd <;> cases cx <;> cases il <;> simp [DL.convertBlobToFormat, ht]

/-- C7: format conversion never fails the overall operation — the result
differs from the unconverted download at most in the blob and mime fields;
the blob is the original whenever the environment fails anywhere during
re-encoding (decode failure, missing drawing context, null encode result);
and conversion is the identity when no options, no target MIME, or an
already-matching MIME is given. -/
theorem c7_conversion_never_fatal (env : DL.ConvEnv)
    (d : DL.ImageDownloadMetadata) (options : Option DL.NormalizedDownloadOptions) :
    (∃ b m, DL.convertBlob env d options = { d with blob := b, mime := m }) ∧
      ((env.bitmapDecode = false ∨ env.ctx2d = false ∨ env.encodeResult = none) →
        (DL.convertBlob env d options).blob = d.blob) ∧
      (∀ opts, options = some opts →
        (opts.convertMime = none ∨ opts.convertMime = d.mime) →
        DL.convertBlob env d options = d) ∧
      (options = none → DL.convertBlob env d options = d) := by
  cases options with
  | none =>
    refine ⟨⟨d.blob, d.mime, rfl⟩, fun _ => rfl, ?_, fun _ => rfl⟩
    intro opts hopts
    exact absurd hopts (by simp)
  | some opts =>
    have hunfold : DL.convertBlob env d (some opts) =
        match opts.convertMime with
        | none => d
        | some cm =>
          if d.mime = some cm then d
          else
            { d with blob := DL.convertBlobToFormat env d.blob cm
                     mime := some cm } := rfl
    cases hcm : opts.convertMime with
    | none =>
      have hres : DL.convertBlob env d (some opts) = d := by
        rw [hunfold, hcm]
      refine ⟨⟨d.blob, d.mime, by rw [hres]⟩, fun _ => by rw [hres], ?_,
        fun hcon => absurd hcon (by simp)⟩
      intro opts2 hopts2 _
      exact hres
    | some cm =>
      by_cases hmime : d.mime = some cm
      · have hres : DL.convertBlob env d (some opts) = d := by
          rw [hunfold, hcm]
          exact if_pos hmime
        refine ⟨⟨d.blob, d.mime, by rw [hres]⟩, fun _ => by rw [hres], ?_,
          fun hcon => absurd hcon (by simp)⟩
        intro opts2 hopts2 _
        exact hres
      · have hres : DL.convertBlob env d (some opts) =
            { d with blob := DL.convertBlobToFormat env d.blob cm
                     mime := some cm } := by
          rw [hunfold, hcm]
          exact if_neg hmime
        refine ⟨⟨DL.convertBlobToFormat env d.blob cm, some cm, hres⟩, ?_, ?_,
          fun hcon => absurd hcon (by simp)⟩
        · intro henv
          rw [hres]
          exact convertBlobToFormat_fallback env d.blob cm henv
        · intro opts2 hopts2 hnoop
          injection hopts2 with he
          rw [← he] at hnoop
          rcases hnoop with hn | hn
        
          · rw [hcm] at hn
            exact absurd hn (by simp)
          · rw [hcm] at hn
            exact absurd hn.symm hmime

/-- Witness: at a concrete download, options carrying a fresh target MIME
and an environment whose bitmap decode fails, the theorem yields that the
blob is returned unchanged. -/
theorem c7_witness :
    (DL.convertBlob ⟨false, true, true, some ⟨[9, 9]⟩⟩
      ⟨⟨[5]⟩, some "image/png", some "https://x/a.png", none, some "png"⟩
      (some ⟨none, false, false, some "image/jpeg", some 5000⟩)).blob = ⟨[5]⟩ :=
  (c7_conversion_never_fatal ⟨false, true, true, some ⟨[9, 9]⟩⟩
      ⟨⟨[5]⟩, some "image/png", some "https://x/a.png", none, some "png"⟩
      (some ⟨none, false, false, some "image/jpeg", some 5000⟩)).2.1
    (Or.inl rfl)

/- ------------------------------------------------------------------ -/
/- Claim C2                                                            -/
/- ------------------------------------------------------------------ -/

/-- C2: on the concrete animated-looking URL https://x/a.gif (network
preferred by the heuristic), the acquisition (i) succeeds with the network
payload when the network attempt succeeds, but (ii) when the network attempt
fails and the canvas attempt would succeed, the caller still observes the
generic failure — the fired-and-forgotten retry settles successfully on the
side — and (iii) when both fail the caller observes the same generic
failure. The failover promised by the spec never delivers a value to the
caller. -/
theorem c2_failover_is_broken :
    DL.doesPreferNetwork (DL.getMetadataFromURL "https://x/a.gif" DL.noOptions)
        DL.noOptions = true ∧
      DL.imageToBlobHelper ⟨.ok ⟨⟨[7]⟩, "image/png"⟩, .error "canvas taint"⟩
          (DL.getMetadataFromURL "https://x/a.gif" DL.noOptions) DL.noOptions =
        (.ok ⟨⟨[7]⟩, some "image/png", some "https://x/a.gif",
            some "a.png", some "gif"⟩, []) ∧
      DL.imageToBlobHelper ⟨.error "network down", .ok ⟨⟨[7]⟩, "image/png"⟩⟩
          (DL.getMetadataFromURL "https://x/a.gif" DL.noOptions) DL.noOptions =
        (.error "Failed to download an image", [.ok ⟨⟨[7]⟩, "image/png"⟩]) ∧
      DL.imageToBlobHelper ⟨.error "network down", .error "canvas taint"⟩
          (DL.getMetadataFromURL "https://x/a.gif" DL.noOptions) DL.noOptions =
        (.error "Failed to download an image", [.error "canvas taint"]) := by
  refine ⟨rfl, rfl, rfl, rfl⟩

/- ------------------------------------------------------------------ -/
/- Claim C8                                                            -/
/- ------------------------------------------------------------------ -/

/-- C8: filename derivation — the concrete instance url https://x/a.b.png
with mime image/jpeg and no override yields a.b.jpg; a usable MIME-derived
extension takes precedence over the URL-derived one and the default; with no
MIME the URL-derived extension is used; with neither, the supplied default;
and when a URL parses and its final path segment has a dotted prefix of
length at least two, the segment keeps its base (interior dots included) and
has its own extension replaced by the computed one. -/
theorem c8_filename_derivation :
    DL.getDownloadFilename none (some "https://x/a.b.png") (some "image/jpeg")
        "img" "image" = "a.b.jpg" ∧
      (∀ u m e dExt dBase, DL.getExtensionFromMime m = some e → e ≠ "" →
        DL.getDownloadFilename none (some u) (some m) dExt dBase =
          DL.getDownloadFilename.fromURLOrDefault (some u) e dBase) ∧
      (∀ u e dExt dBase, DL.getExtensionFromURL u = some e → e ≠ "" →
        DL.getDownloadFilename none (some u) none dExt dBase =
          DL.getDownloadFilename.fromURLOrDefault (some u) e dBase) ∧
      (∀ u dExt dBase, DL.getExtensionFromURL u = none →
        DL.getDownloadFilename none (some u) none dExt dBase =
          DL.getDownloadFilename.fromURLOrDefault (some u) dExt dBase) ∧
      (∀ u parts ext dBase lastSeg, DL.parseURL u = some parts →
        lastSeg = ((DL.splitAfterLast '/' parts.pathname.data).2.takeWhile
            (· ≠ '?')).takeWhile (· ≠ '#') →
        lastSeg ≠ [] → 2 ≤ ((DL.splitAfterLast '.' lastSeg).1).length →
        DL.getDownloadFilename.fromURLOrDefault (some u) ext dBase =
          ⟨((DL.splitAfterLast '.' lastSeg).1).dropLast ++ '.' :: ext.data⟩) := by
  refine ⟨by decide, ?_, ?_, ?_, ?_⟩
  · intro u m e dExt dBase hm he
    have h0 : DL.getDownloadFilename none (some u) (some m) dExt dBase =
        DL.getDownloadFilename.fromURLOrDefault (some u)
          (DL.jsStrOr (DL.getExtensionFromMime m)
            (DL.jsStrOr (DL.getExtensionFromURL u) dExt)) dBase := rfl
    rw [h0, hm]
    have h1 : DL.jsStrOr (some e)
        (DL.jsStrOr (DL.getExtensionFromURL u) dExt) = e := by
      simp [DL.jsStrOr, he]
    rw [h1]
  · intro u e dExt dBase hu he
    have h0 : DL.getDownloadFilename none (some u) none dExt dBase =
        DL.getDownloadFilename.fromURLOrDefault (some u)
          (DL.jsStrOr none (DL.jsStrOr (DL.getExtensionFromURL u) dExt))
          dBase := rfl
    rw [h0, hu]
    have h1 : DL.jsStrOr none (DL.jsStrOr (some e) dExt) = e := by
      simp [DL.jsStrOr, he]
    rw [h1]
  · intro u dExt dBase hu
    have h0 : DL.getDownloadFilename none (some u) none dExt dBase =
        DL.getDownloadFilename.fromURLOrDefault (some u)
          (DL.jsStrOr none (DL.jsStrOr (DL.getExtensionFromURL u) dExt))
          dBase := rfl
    rw [h0, hu]
    have h1 : DL.jsStrOr none (DL.jsStrOr none dExt) = dExt := by
      simp [DL.jsStrOr]
    rw [h1]
  · intro u parts ext dBase lastSeg hp hseg hne hlen
    have h1 : DL.getDownloadFilename.fromURLOrDefault (some u) ext dBase =
        (if lastSeg ≠ [] then
          if 2 ≤ ((DL.splitAfterLast '.' lastSeg).1).length then
            (⟨((DL.splitAfterLast '.' lastSeg).1).dropLast ++ '.' :: ext.data⟩ :
              String)
          else ⟨lastSeg ++ '.' :: ext.data⟩
        else ⟨dBase.data ++ '.' :: ext.data⟩) := by
      subst hseg
      have h2 : DL.getDownloadFilename.fromURLOrDefault (some u) ext dBase =
          match DL.parseURL u with
          | some parts =>
            let lastSeg0 := (DL.splitAfterLast '/' parts.pathname.data).2
            let lastSeg := (lastSeg0.takeWhile (· ≠ '?')).takeWhile (· ≠ '#')
            if lastSeg ≠ [] then
              if 2 ≤ ((DL.splitAfterLast '.' lastSeg).1).length then
                (⟨((DL.splitAfterLast '.' lastSeg).1).dropLast ++
                  '.' :: ext.data⟩ : String)
              else ⟨lastSeg ++ '.' :: ext.data⟩
            else ⟨dBase.data ++ '.' :: ext.data⟩
          | none => ⟨dBase.data ++ '.' :: ext.data⟩ := rfl
      rw [h2, hp]
    rw [h1, if_pos hne, if_pos hlen]

/-- Witness: for url https://x/q.gif and mime image/png the MIME-derived
extension png is used. -/
theorem c8_witness :
    DL.getDownloadFilename none (some "https://x/q.gif") (some "image/png")
        "img" "image" =
      DL.getDownloadFilename.fromURLOrDefault (some "https://x/q.gif") "png"
        "image" :=
  c8_filename_derivation.2.1 "https://x/q.gif" "image/png" "png" "img" "image"
    rfl (by decide)

/- ------------------------------------------------------------------ -/
/- URL parsing soundness                                               -/
/- ------------------------------------------------------------------ -/

theorem takeWhile_append_all {α : Type} (p : α → Bool) (l r : List α)
    (h : ∀ c ∈ l, p c = true) :
    (l ++ r).takeWhile p = l ++ r.takeWhile p := by
  induction l with
  | nil => rfl
  | cons a t ih =>
    simp only [List.cons_append, List.takeWhile_cons,
      h a (List.mem_cons_self a t)]
    rw [ih fun c hc => h c (List.mem_cons_of_mem a hc)]
    simp

theorem dropWhile_append_all {α : Type} (p : α → Bool) (l r : List α)
    (h : ∀ c ∈ l, p c = true) :
    (l ++ r).dropWhile p = r.dropWhile p := by
  induction l with
  | nil => rfl
  | cons a t ih =>
    simp only [List.cons_append, List.dropWhile_cons,
      h a (List.mem_cons_self a t), if_true]
    exact ih fun c hc => h c (List.mem_cons_of_mem a hc)

theorem takeWhile_eq_self_of_all {α : Type} (p : α → Bool) (l : List α)
    (h : ∀ c ∈ l, p c = true) : l.takeWhile p = l := by
  have h2 := takeWhile_append_all p l [] h
  simpa using h2

theorem dropWhile_eq_nil_of_all {α : Type} (p : α → Bool) (l : List α)
    (h : ∀ c ∈ l, p c = true) : l.dropWhile p = [] := by
  have h2 := dropWhile_append_all p l [] h
  simpa using h2

theorem splitAfterLast_snd_eq (sep : Char) (l : List Char) :
    (DL.splitAfterLast sep l).2 = (l.reverse.takeWhile (· ≠ sep)).reverse := rfl

theorem splitAfterLast_fst_eq (sep : Char) (l : List Char) :
    (DL.splitAfterLast sep l).1 = (l.reverse.dropWhile (· ≠ sep)).reverse := rfl

theorem splitAfterLast_snd_append (sep : Char) (a b : List Char)
    (hb : ∀ c ∈ b, c ≠ sep) :
    (DL.splitAfterLast sep (a ++ b)).2 = (DL.splitAfterLast sep a).2 ++ b := by
  rw [splitAfterLast_snd_eq, splitAfterLast_snd_eq, List.reverse_append,
    takeWhile_append_all (fun c => decide (c ≠ sep)) b.reverse a.reverse
      (by intro c hc; simpa using hb c (List.mem_reverse.mp hc)),
    List.reverse_append, List.reverse_reverse]

theorem splitAfterLast_concat_sep (sep : Char) (a b : List Char)
    (hb : ∀ c ∈ b, c ≠ sep) :
    (DL.splitAfterLast sep (a ++ sep :: b)).1 = a ++ [sep] ∧
      (DL.splitAfterLast sep (a ++ sep :: b)).2 = b := by
  have hrev : (a ++ sep :: b).reverse = b.reverse ++ sep :: a.reverse := by
    simp
  constructor
  · rw [splitAfterLast_fst_eq, hrev,
      dropWhile_append_all (fun c => decide (c ≠ sep)) b.reverse _
        (by intro c hc; simpa using hb c (List.mem_reverse.mp hc))]
    rw [List.dropWhile_cons]
    simp
  · rw [splitAfterLast_snd_eq, hrev,
      takeWhile_append_all (fun c => decide (c ≠ sep)) b.reverse _
        (by intro c hc; simpa using hb c (List.mem_reverse.mp hc))]
    rw [List.takeWhile_cons]
    simp

theorem isSchemeChar_ne_colon {c : Char} (h : DL.isSchemeChar c = true) :
    c ≠ ':' := by
  intro hc
  subst hc
  exact absurd h (by decide)

/-- Running the embedded URL parser on a well-shaped absolute URL recovers its
components. -/
theorem parseURL_sound (scheme auth rest2 : List Char)
    (hs : scheme ≠ []) (hsc : scheme.all DL.isSchemeChar = true)
    (ha : auth ≠ [])
    (hac : ∀ c ∈ auth, c ≠ '/' ∧ c ≠ '?' ∧ c ≠ '#')
    (hr2 : rest2 = [] ∨ rest2.head? = some '/' ∨ rest2.head? = some '?' ∨
      rest2.head? = some '#') :
    DL.parseURL ⟨scheme ++ ':' :: '/' :: '/' :: (auth ++ rest2)⟩ =
      some ⟨⟨scheme⟩, ⟨auth⟩,
        ⟨rest2.takeWhile fun c => c ≠ '?' && c ≠ '#'⟩,
        ⟨(rest2.dropWhile fun c => c ≠ '?' && c ≠ '#').takeWhile (· ≠ '#')⟩,
        ⟨(rest2.dropWhile fun c => c ≠ '?' && c ≠ '#').dropWhile (· ≠ '#')⟩⟩ := by
  have hcs : (⟨scheme ++ ':' :: '/' :: '/' :: (auth ++ rest2)⟩ : String).data =
      scheme ++ ':' :: '/' :: '/' :: (auth ++ rest2) := rfl
  have hschemeAll : ∀ c ∈ scheme, (decide (c ≠ ':')) = true := by
    intro c hc
    have := List.all_eq_true.mp hsc c hc
    simpa using isSchemeChar_ne_colon this
  have h1 : (scheme ++ ':' :: '/' :: '/' :: (auth ++ rest2)).takeWhile
      (· ≠ ':') = scheme := by
    rw [takeWhile_append_all _ _ _ hschemeAll]
    simp [List.takeWhile_cons]
  have h2 : (scheme ++ ':' :: '/' :: '/' :: (auth ++ rest2)).dropWhile
      (· ≠ ':') = ':' :: '/' :: '/' :: (auth ++ rest2) := by
    rw [dropWhile_append_all _ _ _ hschemeAll]
    simp [List.dropWhile_cons]
  have hauthAll : ∀ c ∈ auth,
      (decide (c ≠ '/') && decide (c ≠ '?') && decide (c ≠ '#')) = true := by
    intro c hc
    obtain ⟨x, y, z⟩ := hac c hc
    simp [x, y, z]
  have hrest2take : (rest2.takeWhile fun c =>
      decide (c ≠ '/') && decide (c ≠ '?') && decide (c ≠ '#')) = [] := by
    rcases hr2 with h | h | h | h
    · rw [h]; rfl
    all_goals
      cases rest2 with
      | nil => rfl
      | cons a t =>
        simp only [List.head?_cons, Option.some.injEq] at h
        subst h
        simp [List.takeWhile_cons]
  have hrest2drop : (rest2.dropWhile fun c =>
      decide (c ≠ '/') && decide (c ≠ '?') && decide (c ≠ '#')) = rest2 := by
    rcases hr2 with h | h | h | h
    · rw [h]; rfl
    all_goals
      cases rest2 with
      | nil => rfl
      | cons a t =>
        simp only [List.head?_cons, Option.some.injEq] at h
        subst h
        simp [List.dropWhile_cons]
  have h3 : ((auth ++ rest2).takeWhile fun c =>
      decide (c ≠ '/') && decide (c ≠ '?') && decide (c ≠ '#')) = auth := by
    rw [takeWhile_append_all _ _ _ hauthAll, hrest2take, List.append_nil]
  have h4 : ((auth ++ rest2).dropWhile fun c =>
      decide (c ≠ '/') && decide (c ≠ '?') && decide (c ≠ '#')) = rest2 := by
    rw [dropWhile_append_all _ _ _ hauthAll, hrest2drop]
  have hbody : DL.parseURL ⟨scheme ++ ':' :: '/' :: '/' :: (auth ++ rest2)⟩ =
      (let cs := scheme ++ ':' :: '/' :: '/' :: (auth ++ rest2)
       let sch := cs.takeWhile (· ≠ ':')
       let rest0 := cs.dropWhile (· ≠ ':')
       if [':', '/', '/'].isPrefixOf rest0 then
         if sch = [] || !sch.all DL.isSchemeChar then none
         else
           let rest := rest0.drop 3
           let au := rest.takeWhile fun c => c ≠ '/' && c ≠ '?' && c ≠ '#'
           let r2 := rest.dropWhile fun c => c ≠ '/' && c ≠ '?' && c ≠ '#'
           if au = [] then none
           else
             let path := r2.takeWhile fun c => c ≠ '?' && c ≠ '#'
             let r3 := r2.dropWhile fun c => c ≠ '?' && c ≠ '#'
             some ⟨⟨sch⟩, ⟨au⟩, ⟨path⟩, ⟨r3.takeWhile (· ≠ '#')⟩,
               ⟨r3.dropWhile (· ≠ '#')⟩⟩
       else none) := rfl
  rw [hbody]
  simp only [h1, h2]
  rw [show ([':', '/', '/'].isPrefixOf
      (':' :: '/' :: '/' :: (auth ++ rest2))) = true by
    simp [List.isPrefixOf]]
  rw [if_pos rfl]
  simp only [hs, hsc, List.drop_succ_cons, List.drop_zero]
  rw [if_neg (by simp [hs, hsc])]
  simp only [h3, h4]
  rw [if_neg ha]

/- ------------------------------------------------------------------ -/
/- Animated-extension scan                                             -/
/- ------------------------------------------------------------------ -/

theorem isPossiblyAnimatedScan_of (pre l : List Char) (hl : l ≠ [])
    (h : DL.animExtAt l = true) :
    DL.isPossiblyAnimatedScan (pre ++ l) = true := by
  induction pre with
  | nil =>
    cases l with
    | nil => exact absurd rfl hl
    | cons c r =>
      rw [List.nil_append,
        show DL.isPossiblyAnimatedScan (c :: r) =
          (DL.animExtAt (c :: r) || DL.isPossiblyAnimatedScan r) from rfl, h]
      rfl
  | cons a t ih =>
    rw [List.cons_append,
      show DL.isPossiblyAnimatedScan (a :: (t ++ l)) =
        (DL.animExtAt (a :: (t ++ l)) || DL.isPossiblyAnimatedScan (t ++ l))
        from rfl, ih]
    simp

theorem scan_true_elim (l : List Char)
    (h : DL.isPossiblyAnimatedScan l = true) :
    ∃ pre suf, l = pre ++ suf ∧ DL.animExtAt suf = true := by
  induction l with
  | nil => exact absurd h (by decide)
  | cons c r ih =>
    rw [show DL.isPossiblyAnimatedScan (c :: r) =
      (DL.animExtAt (c :: r) || DL.isPossiblyAnimatedScan r) from rfl] at h
    rcases Bool.or_eq_true_iff.mp h with h1 | h1
    · exact ⟨[], c :: r, rfl, h1⟩
    · obtain ⟨pre, suf, heq, ha⟩ := ih h1
      exact ⟨c :: pre, suf, by rw [List.cons_append, heq], ha⟩

theorem animExtAt_gif (rest : List Char)
    (hrest : rest = [] ∨ rest.head? = some '?' ∨ rest.head? = some '#') :
    DL.animExtAt ('.' :: 'g' :: 'i' :: 'f' :: rest) = true := by
  have hmain : "gif".data.isPrefixOf
      (DL.jsToLower ('g' :: 'i' :: 'f' :: rest)) = true := by
    show List.isPrefixOf ['g', 'i', 'f']
      (List.map Char.toLower ('g' :: 'i' :: 'f' :: rest)) = true
    rw [List.map_cons, List.map_cons, List.map_cons]
    rw [show Char.toLower 'g' = 'g' from by decide,
      show Char.toLower 'i' = 'i' from by decide,
      show Char.toLower 'f' = 'f' from by decide]
    simp [List.isPrefixOf]
  have hdrop : (('g' :: 'i' :: 'f' :: rest).drop "gif".data.length) = rest := by
    rfl
  unfold DL.animExtAt
  rw [show DL.ANIMATED_EXT_PATTERN = ["gif", "apng", "webp", "avif"] from rfl]
  simp only [List.any_cons]
  rw [hmain, hdrop]
  rcases hrest with h | h | h
  · subst h; simp
  all_goals
    cases rest with
    | nil => simp at h
    | cons a t =>
      simp only [List.head?_cons, Option.some.injEq] at h
      subst h
      simp

theorem animExtAt_elim (s : List Char) (h : DL.animExtAt s = true) :
    ∃ r, s = '.' :: r ∧ ∃ fmt ∈ DL.ANIMATED_EXT_PATTERN,
      fmt.data.isPrefixOf (DL.jsToLower r) = true ∧
      ((r.drop fmt.data.length).head? = none ∨
        (r.drop fmt.data.length).head? = some '?' ∨
        (r.drop fmt.data.length).head? = some '#') := by
  cases s with
  | nil => exact absurd h (by decide)
  | cons c r =>
    have h2 : (if c = '.' then
        DL.ANIMATED_EXT_PATTERN.any fun fmt =>
          fmt.data.isPrefixOf (DL.jsToLower r) &&
            (match (r.drop fmt.data.length).head? with
             | none => true
             | some c => c = '?' || c = '#')
      else false) = true := h
    by_cases hc : c = '.'
    · subst hc
      rw [if_pos rfl] at h2
      refine ⟨r, rfl, ?_⟩
      obtain ⟨fmt, hfmt, hval⟩ := List.any_eq_true.mp h2
      simp only [Bool.and_eq_true] at hval
      obtain ⟨hpref, hlook⟩ := hval
      refine ⟨fmt, hfmt, hpref, ?_⟩
      cases hh : (r.drop fmt.data.length).head? with
      | none => exact Or.inl rfl
      | some c2 =>
        rw [hh] at hlook
        have hl2 : (decide (c2 = '?') || decide (c2 = '#')) = true := hlook
        rcases Bool.or_eq_true_iff.mp hl2 with h2 | h2
        · exact Or.inr (Or.inl (by rw [of_decide_eq_true h2]))
        · exact Or.inr (Or.inr (by rw [of_decide_eq_true h2]))
    · rw [if_neg hc] at h2
      exact absurd h2 (by decide)

theorem scan_false_of_png (pre l : List Char)
    (hend : l = pre ++ ".png".data)
    (hq : ∀ c ∈ l, c ≠ '?' ∧ c ≠ '#') :
    DL.isPossiblyAnimatedScan l = false := by
  cases hb : DL.isPossiblyAnimatedScan l with
  | false => rfl
  | true =>
    exfalso
    obtain ⟨pre2, suf, heq, ha⟩ := scan_true_elim l hb
    obtain ⟨r, hsuf, fmt, hfmt, hpref, hlook⟩ := animExtAt_elim suf ha
    subst hsuf
    have hrmem : ∀ c ∈ r, c ∈ l := by
      intro c hc
      rw [heq]
      simp [hc]
    rcases hlook with hn | hsome | hsome
    case _ =>
      -- the match ends at the end of the URL: r is exactly fmt (lowered)
      have hpre2 : fmt.data <+: DL.jsToLower r :=
        List.isPrefixOf_iff_prefix.mp hpref
      have hlen1 : fmt.data.length ≤ r.length := by
        have := hpre2.length_le
        simpa [DL.jsToLower] using this
      have hdropnil : r.drop fmt.data.length = [] := by
        cases hdd : r.drop fmt.data.length with
        | nil => rfl
        | cons d t => rw [hdd] at hn; exact absurd hn (by simp)
      have hlen2 : r.length ≤ fmt.data.length := by
        have h5 := congrArg List.length hdropnil
        rw [List.length_drop] at h5
        simp only [List.length_nil] at h5
        omega
      have hleneq : r.length = fmt.data.length := le_antisymm hlen2 hlen1
      have hjs : fmt.data = DL.jsToLower r :=
        hpre2.eq_of_length (by simp [DL.jsToLower, hleneq])
      have hrev : r.reverse ++ '.' :: pre2.reverse =
          'g' :: 'n' :: 'p' :: '.' :: pre.reverse := by
        have h6 := congrArg List.reverse (heq.symm.trans hend)
        simpa using h6
      rw [show DL.ANIMATED_EXT_PATTERN = ["gif", "apng", "webp", "avif"]
        from rfl] at hfmt
      simp only [List.mem_cons, List.not_mem_nil, or_false] at hfmt
      rcases hfmt with hf | hf | hf | hf <;> subst hf
      · have hl3 : r.reverse.length = 3 := by simp [hleneq]
        have h7 : r.reverse = ['g', 'n', 'p'] := by
          calc r.reverse = (r.reverse ++ '.' :: pre2.reverse).take 3 := by
                rw [← hl3, List.take_left]
            _ = ('g' :: 'n' :: 'p' :: '.' :: pre.reverse).take 3 := by
                rw [hrev]
            _ = ['g', 'n', 'p'] := by simp
        have h8 : r = ['p', 'n', 'g'] := by
          have := congrArg List.reverse h7
          simpa using this
        rw [h8] at hjs
        exact absurd hjs (by decide)
      · have hl3 : r.reverse.length = 4 := by simp [hleneq]
        have h7 : r.reverse = ['g', 'n', 'p', '.'] := by
          calc r.reverse = (r.reverse ++ '.' :: pre2.reverse).take 4 := by
                rw [← hl3, List.take_left]
            _ = ('g' :: 'n' :: 'p' :: '.' :: pre.reverse).take 4 := by
                rw [hrev]
            _ = ['g', 'n', 'p', '.'] := by simp
        have h8 : r = ['.', 'p', 'n', 'g'] := by
          have := congrArg List.reverse h7
          simpa using this
        rw [h8] at hjs
        exact absurd hjs (by decide)
      · have hl3 : r.reverse.length = 4 := by simp [hleneq]
        have h7 : r.reverse = ['g', 'n', 'p', '.'] := by
          calc r.reverse = (r.reverse ++ '.' :: pre2.reverse).take 4 := by
                rw [← hl3, List.take_left]
            _ = ('g' :: 'n' :: 'p' :: '.' :: pre.reverse).take 4 := by
                rw [hrev]
            _ = ['g', 'n', 'p', '.'] := by simp
        have h8 : r = ['.', 'p', 'n', 'g'] := by
          have := congrArg List.reverse h7
          simpa using this
        rw [h8] at hjs
        exact absurd hjs (by decide)
      · have hl3 : r.reverse.length = 4 := by simp [hleneq]
        have h7 : r.reverse = ['g', 'n', 'p', '.'] := by
          calc r.reverse = (r.reverse ++ '.' :: pre2.reverse).take 4 := by
                rw [← hl3, List.take_left]
            _ = ('g' :: 'n' :: 'p' :: '.' :: pre.reverse).take 4 := by
                rw [hrev]
            _ = ['g', 'n', 'p', '.'] := by simp
        have h8 : r = ['.', 'p', 'n', 'g'] := by
          have := congrArg List.reverse h7
          simpa using this
        rw [h8] at hjs
        exact absurd hjs (by decide)
    case _ =>
      cases hdd : r.drop fmt.data.length with
      | nil => rw [hdd] at hsome; exact absurd hsome (by simp)
      | cons d t =>
        rw [hdd] at hsome
        simp only [List.head?_cons, Option.some.injEq] at hsome
        subst hsome
        have hd2 : '?' ∈ r.drop fmt.data.length := by
          rw [hdd]
          exact List.mem_cons_self _ _
        exact (hq '?' (hrmem '?' (List.mem_of_mem_drop hd2))).1 rfl
    case _ =>
      cases hdd : r.drop fmt.data.length with
      | nil => rw [hdd] at hsome; exact absurd hsome (by simp)
      | cons d t =>
        rw [hdd] at hsome
        simp only [List.head?_cons, Option.some.injEq] at hsome
        subst hsome
        have hd2 : '#' ∈ r.drop fmt.data.length := by
          rw [hdd]
          exact List.mem_cons_self _ _
        exact (hq '#' (hrmem '#' (List.mem_of_mem_drop hd2))).2 rfl

theorem string_mk_cons_ne_empty (c : Char) (l : List Char) :
    (⟨c :: l⟩ : String) ≠ "" := by
  intro h
  have h2 := congrArg String.data h
  simp at h2

theorem extFromSegment_of_split (seg d t : List Char)
    (h1 : (DL.splitAfterLast '.' seg).1 = d) (hd : d ≠ [])
    (h2 : (DL.splitAfterLast '.' seg).2 = t)
    (ht : (DL.jsToLower t ≠ [] && (DL.jsToLower t).all DL.extAllowedChar)
      = true) :
    DL.extFromSegment seg = some ⟨DL.jsToLower t⟩ := by
  have hbody : DL.extFromSegment seg =
      if (DL.splitAfterLast '.' seg).1 = [] then none
      else if DL.jsToLower (DL.splitAfterLast '.' seg).2 ≠ [] &&
          (DL.jsToLower (DL.splitAfterLast '.' seg).2).all DL.extAllowedChar
        then some ⟨DL.jsToLower (DL.splitAfterLast '.' seg).2⟩ else none := rfl
  rw [hbody, if_neg (by rw [h1]; exact hd), h2, if_pos ht]

theorem getExtensionFromURL_png (host p0 : List Char)
    (hh : host ≠ []) (hhc : ∀ c ∈ host, c ≠ '/' ∧ c ≠ '?' ∧ c ≠ '#')
    (hp : ∀ c ∈ p0, c ≠ '?' ∧ c ≠ '#') :
    DL.getExtensionFromURL ⟨"https".data ++ ':' :: '/' :: '/' ::
      (host ++ '/' :: (p0 ++ ".png".data))⟩ = some "png" := by
  have hall : ∀ c ∈ ('/' :: (p0 ++ ".png".data)),
      (decide (c ≠ '?') && decide (c ≠ '#')) = true := by
    intro c hc
    rcases List.mem_cons.mp hc with h1 | h1
    · subst h1; decide
    · rcases List.mem_append.mp h1 with h2 | h2
      · obtain ⟨x, y⟩ := hp c h2
        simp [x, y]
      · have : ∀ c ∈ ".png".data, (decide (c ≠ '?') && decide (c ≠ '#'))
            = true := by decide
        exact this c h2
  have htake : (('/' :: (p0 ++ ".png".data)).takeWhile
      fun c => decide (c ≠ '?') && decide (c ≠ '#'))
      = '/' :: (p0 ++ ".png".data) :=
    takeWhile_eq_self_of_all _ _ hall
  have hdrop0 : (('/' :: (p0 ++ ".png".data)).dropWhile
      fun c => decide (c ≠ '?') && decide (c ≠ '#')) = [] :=
    dropWhile_eq_nil_of_all _ _ hall
  have hparse := parseURL_sound "https".data host ('/' :: (p0 ++ ".png".data))
    (by decide) (by decide) hh hhc (Or.inr (Or.inl rfl))
  simp only [htake, hdrop0, List.takeWhile_nil, List.dropWhile_nil] at hparse
  have hge : DL.getExtensionFromURL ⟨"https".data ++ ':' :: '/' :: '/' ::
      (host ++ '/' :: (p0 ++ ".png".data))⟩ =
      match DL.parseURL ⟨"https".data ++ ':' :: '/' :: '/' ::
        (host ++ '/' :: (p0 ++ ".png".data))⟩ with
      | some u =>
        DL.extFromSegment ((((DL.splitAfterLast '/' u.pathname.data).2).takeWhile
          (· ≠ '?')).takeWhile (· ≠ '#'))
      | none =>
        DL.extFromSegment (DL.splitAfterLast '/'
          ((⟨"https".data ++ ':' :: '/' :: '/' ::
            (host ++ '/' :: (p0 ++ ".png".data))⟩ : String).data.takeWhile
            fun c => c ≠ '?' && c ≠ '#')).2 := rfl
  have hseg : DL.getExtensionFromURL ⟨"https".data ++ ':' :: '/' :: '/' ::
      (host ++ '/' :: (p0 ++ ".png".data))⟩ =
      DL.extFromSegment ((((DL.splitAfterLast '/'
        ('/' :: (p0 ++ ".png".data))).2).takeWhile
          (· ≠ '?')).takeWhile (· ≠ '#')) := by
    rw [hge, hparse]
    rfl
  have hsnd : (DL.splitAfterLast '/' ('/' :: (p0 ++ ".png".data))).2 =
      (DL.splitAfterLast '/' ('/' :: p0)).2 ++ ".png".data := by
    rw [show ('/' :: (p0 ++ ".png".data)) = ('/' :: p0) ++ ".png".data
      from rfl]
    exact splitAfterLast_snd_append '/' _ _ (by decide)
  have hq1mem : ∀ c ∈ (DL.splitAfterLast '/' ('/' :: p0)).2,
      c ≠ '?' ∧ c ≠ '#' := by
    intro c hc
    have hjoin := DL.splitAfterLast_join '/' ('/' :: p0)
    have hmem : c ∈ ('/' :: p0) := by
      rw [← hjoin]
      exact List.mem_append_right _ hc
    rcases List.mem_cons.mp hmem with h1 | h1
    · subst h1; exact ⟨by decide, by decide⟩
    · exact hp c h1
  have hmemQ : ∀ c ∈ (DL.splitAfterLast '/' ('/' :: p0)).2 ++ ".png".data,
      c ≠ '?' ∧ c ≠ '#' := by
    intro c hc
    rcases List.mem_append.mp hc with h1 | h1
    · exact hq1mem c h1
    · have : ∀ c ∈ ".png".data, c ≠ '?' ∧ c ≠ '#' := by decide
      exact this c h1
  have ht1 : (((DL.splitAfterLast '/' ('/' :: p0)).2 ++
      ".png".data).takeWhile (· ≠ '?')) =
      (DL.splitAfterLast '/' ('/' :: p0)).2 ++ ".png".data :=
    takeWhile_eq_self_of_all _ _ (by
      intro c hc
      simpa using (hmemQ c hc).1)
  have ht2 : (((DL.splitAfterLast '/' ('/' :: p0)).2 ++
      ".png".data).takeWhile (· ≠ '#')) =
      (DL.splitAfterLast '/' ('/' :: p0)).2 ++ ".png".data :=
    takeWhile_eq_self_of_all _ _ (by
      intro c hc
      simpa using (hmemQ c hc).2)
  rw [hseg, hsnd, ht1, ht2]
  have hsplit := splitAfterLast_concat_sep '.'
    ((DL.splitAfterLast '/' ('/' :: p0)).2) ['p', 'n', 'g'] (by decide)
  have hfin := extFromSegment_of_split
    ((DL.splitAfterLast '/' ('/' :: p0)).2 ++ ".png".data)
    ((DL.splitAfterLast '/' ('/' :: p0)).2 ++ ['.']) ['p', 'n', 'g']
    (by
      rw [show ((DL.splitAfterLast '/' ('/' :: p0)).2 ++ ".png".data) =
        ((DL.splitAfterLast '/' ('/' :: p0)).2 ++ '.' :: ['p', 'n', 'g'])
        from rfl]
      exact hsplit.1)
    (by
      intro h0
      have := congrArg List.length h0
      simp at this)
    (by
      rw [show ((DL.splitAfterLast '/' ('/' :: p0)).2 ++ ".png".data) =
        ((DL.splitAfterLast '/' ('/' :: p0)).2 ++ '.' :: ['p', 'n', 'g'])
        from rfl]
      exact hsplit.2)
    (by decide)
  rw [hfin]
  decide

theorem doesPreferNetwork_no_flags (md : DL.ImageMetadata)
    (opts : DL.NormalizedDownloadOptions)
    (hn : opts.preferNetwork = false) (hc : opts.preferCanvas = false) :
    DL.doesPreferNetwork md opts =
      ((md.extension.isNone || !(match md.extension with
        | some e => e ≠ "" && DL.KNOWN_IMAGE_EXTENSIONS.contains e
        | none => false)) ||
      DL.isPossiblyAnimated md.src ||
      (DL.hasAnimatedFormatHint md.src && !(match md.extension with
        | some e => e ≠ "" && DL.STATIC_IMAGE_EXTENSIONS.contains e
        | none => false))) := by
  have hbody : DL.doesPreferNetwork md opts =
      (if opts.preferNetwork then true
       else if opts.preferCanvas then false
       else
         ((md.extension.isNone || !(match md.extension with
           | some e => e ≠ "" && DL.KNOWN_IMAGE_EXTENSIONS.contains e
           | none => false)) ||
         DL.isPossiblyAnimated md.src ||
         (DL.hasAnimatedFormatHint md.src && !(match md.extension with
           | some e => e ≠ "" && DL.STATIC_IMAGE_EXTENSIONS.contains e
           | none => false)))) := rfl
  rw [hbody, hn, hc]
  simp

/-- C6 (amended): with neither flag set, a URL whose path ends in .gif
(optionally followed by a query or fragment) yields true; with neither flag
set, a well-formed https URL whose PATH ends in .png and which carries no
query or fragment yields false (a .gif mention inside a query string flips it
to true, hence the query-free requirement); and preferCanvas wins false only
when preferNetwork — checked first — is not also set. -/
theorem c6_prefer_network_amended :
    (∀ (url : String) (opts : DL.NormalizedDownloadOptions) (pre rest : List Char),
      opts.preferNetwork = false → opts.preferCanvas = false →
      url.data = pre ++ ".gif".data ++ rest →
      (rest = [] ∨ rest.head? = some '?' ∨ rest.head? = some '#') →
      DL.doesPreferNetwork (DL.getMetadataFromURL url opts) opts = true) ∧
    (∀ (host p0 : List Char) (opts : DL.NormalizedDownloadOptions),
      opts.preferNetwork = false → opts.preferCanvas = false →
      host ≠ [] → (∀ c ∈ host, c ≠ '/' ∧ c ≠ '?' ∧ c ≠ '#') →
      (∀ c ∈ p0, c ≠ '?' ∧ c ≠ '#') →
      DL.doesPreferNetwork
        (DL.getMetadataFromURL ⟨"https".data ++ ':' :: '/' :: '/' ::
          (host ++ '/' :: (p0 ++ ".png".data))⟩ opts) opts = false) ∧
    (∀ (metadata : DL.ImageMetadata) (opts : DL.NormalizedDownloadOptions),
      opts.preferNetwork = false → opts.preferCanvas = true →
      DL.doesPreferNetwork metadata opts = false) := by
  refine ⟨?_, ?_, ?_⟩
  · intro url opts pre rest hn hc hurl hrest
    rw [List.append_assoc] at hurl
    have hpa : DL.isPossiblyAnimated url = true := by
      have h0 : DL.isPossiblyAnimated url =
          DL.isPossiblyAnimatedScan url.data := rfl
      rw [h0, hurl]
      exact isPossiblyAnimatedScan_of pre ('.' :: 'g' :: 'i' :: 'f' :: rest)
        (by simp) (animExtAt_gif rest hrest)
    rw [doesPreferNetwork_no_flags _ _ hn hc]
    have hsrc : (DL.getMetadataFromURL url opts).src = url := rfl
    rw [hsrc, hpa]
    simp
  · intro host p0 opts hn hc hh hhc hp
    rw [doesPreferNetwork_no_flags _ _ hn hc]
    have hsrc : (DL.getMetadataFromURL ⟨"https".data ++ ':' :: '/' :: '/' ::
        (host ++ '/' :: (p0 ++ ".png".data))⟩ opts).src =
        ⟨"https".data ++ ':' :: '/' :: '/' ::
          (host ++ '/' :: (p0 ++ ".png".data))⟩ := rfl
    have hext : (DL.getMetadataFromURL ⟨"https".data ++ ':' :: '/' :: '/' ::
        (host ++ '/' :: (p0 ++ ".png".data))⟩ opts).extension =
        DL.getExtensionFromURL ⟨"https".data ++ ':' :: '/' :: '/' ::
          (host ++ '/' :: (p0 ++ ".png".data))⟩ := rfl
    rw [hsrc, hext, getExtensionFromURL_png host p0 hh hhc hp]
    have hq : ∀ c ∈ ("https".data ++ ':' :: '/' :: '/' ::
        (host ++ '/' :: (p0 ++ ".png".data))), c ≠ '?' ∧ c ≠ '#' := by
      intro c hc
      simp only [List.mem_append, List.mem_cons] at hc
      rcases hc with h | rfl | rfl | rfl | h | rfl | h | h
      · rcases h with rfl | rfl | rfl | rfl | rfl | h
        · exact ⟨by decide, by decide⟩
        · exact ⟨by decide, by decide⟩
        · exact ⟨by decide, by decide⟩
        · exact ⟨by decide, by decide⟩
        · exact ⟨by decide, by decide⟩
        · simp at h
      · exact ⟨by decide, by decide⟩
      · exact ⟨by decide, by decide⟩
      · exact ⟨by decide, by decide⟩
      · exact ⟨(hhc c h).2.1, (hhc c h).2.2⟩
      · exact ⟨by decide, by decide⟩
      · exact hp c h
      · rcases h with rfl | rfl | rfl | rfl | h
        · exact ⟨by decide, by decide⟩
        · exact ⟨by decide, by decide⟩
        · exact ⟨by decide, by decide⟩
        · exact ⟨by decide, by decide⟩
        · simp at h
    have hshape : ("https".data ++ ':' :: '/' :: '/' ::
        (host ++ '/' :: (p0 ++ ".png".data))) =
        ("https".data ++ ':' :: '/' :: '/' :: (host ++ '/' :: p0)) ++
          ".png".data := by
      simp
    have hscan : DL.isPossiblyAnimated ⟨"https".data ++ ':' :: '/' :: '/' ::
        (host ++ '/' :: (p0 ++ ".png".data))⟩ = false := by
      have h0 : DL.isPossiblyAnimated ⟨"https".data ++ ':' :: '/' :: '/' ::
          (host ++ '/' :: (p0 ++ ".png".data))⟩ =
          DL.isPossiblyAnimatedScan ("https".data ++ ':' :: '/' :: '/' ::
            (host ++ '/' :: (p0 ++ ".png".data))) := rfl
      rw [h0]
      exact scan_false_of_png
        ("https".data ++ ':' :: '/' :: '/' :: (host ++ '/' :: p0)) _ hshape hq
    rw [hscan]
    have hk : (match (some "png" : Option String) with
        | some e => e ≠ "" && DL.KNOWN_IMAGE_EXTENSIONS.contains e
        | none => false) = true := by decide
    have hs2 : (match (some "png" : Option String) with
        | some e => e ≠ "" && DL.STATIC_IMAGE_EXTENSIONS.contains e
        | none => false) = true := by decide
    rw [hk, hs2]
    simp
  · intro metadata opts hn hc
    have hbody : DL.doesPreferNetwork metadata opts =
        (if opts.preferNetwork then true
         else if opts.preferCanvas then false
         else
           ((metadata.extension.isNone || !(match metadata.extension with
             | some e => e ≠ "" && DL.KNOWN_IMAGE_EXTENSIONS.contains e
             | none => false)) ||
           DL.isPossiblyAnimated metadata.src ||
           (DL.hasAnimatedFormatHint metadata.src &&
             !(match metadata.extension with
               | some e => e ≠ "" && DL.STATIC_IMAGE_EXTENSIONS.contains e
               | none => false)))) := rfl
    rw [hbody, hn, hc]
    simp

/-- C6 counterexample: for https://x/a.png?u=.gif the parsed path ends in
.png and neither flag is set, yet the heuristic returns true (the animated
regex runs over the raw URL, so the .gif inside the query matches with its
end-of-string lookahead); and an options value with both flags set returns
true although the claim says preferCanvas always yields false. -/
theorem c6_counterexample :
    DL.doesPreferNetwork
        (DL.getMetadataFromURL "https://x/a.png?u=.gif" DL.noOptions)
        DL.noOptions = true ∧
      (DL.parseURL "https://x/a.png?u=.gif").map
        (fun u => DL.URLParts.pathname u) = some "/a.png" ∧
      DL.noOptions.preferNetwork = false ∧
      DL.noOptions.preferCanvas = false ∧
      DL.doesPreferNetwork ⟨"u", none, some "png", none⟩
        ⟨none, true, true, none, none⟩ = true := by
  refine ⟨by decide, by decide, rfl, rfl, by decide⟩

/-- Witness: the amended theorem applied at https://x/a.png. -/
theorem c6_witness :
    DL.doesPreferNetwork
      (DL.getMetadataFromURL ⟨"https".data ++ ':' :: '/' :: '/' ::
        ("x".data ++ '/' :: ("a".data ++ ".png".data))⟩ DL.noOptions)
      DL.noOptions = false :=
  c6_prefer_network_amended.2.1 "x".data "a".data DL.noOptions rfl rfl
    (by decide) (by decide) (by decide)

/- ------------------------------------------------------------------ -/
/- Key well-formedness: sanitizer output                               -/
/- ------------------------------------------------------------------ -/

theorem mem_collapseRunsAux (p : Char → Bool) (r : Char) :
    ∀ (b : Bool) (l : List Char) (c : Char),
      c ∈ DL.collapseRunsAux p r b l → c = r ∨ (c ∈ l ∧ p c = false) := by
  intro b l
  induction l generalizing b with
  | nil => intro c hc; simp [DL.collapseRunsAux] at hc
  | cons a t ih =>
    intro c hc
    unfold DL.collapseRunsAux at hc
    by_cases hp : p a = true
    · rw [if_pos hp] at hc
      cases b with
      | true =>
        rcases ih true c hc with h | h
        · exact Or.inl h
        · exact Or.inr ⟨List.mem_cons_of_mem a h.1, h.2⟩
      | false =>
        rcases List.mem_cons.mp hc with h | h
        · exact Or.inl h
        · rcases ih true c h with h2 | h2
          · exact Or.inl h2
          · exact Or.inr ⟨List.mem_cons_of_mem a h2.1, h2.2⟩
    · rw [if_neg hp] at hc
      rcases List.mem_cons.mp hc with h | h
      · subst h
        exact Or.inr ⟨List.mem_cons_self c t, Bool.eq_false_iff.mpr hp⟩
      · rcases ih false c h with h2 | h2
        · exact Or.inl h2
        · exact Or.inr ⟨List.mem_cons_of_mem a h2.1, h2.2⟩

theorem mem_collapseRuns (p : Char → Bool) (r : Char) (l : List Char)
    (c : Char) (hc : c ∈ DL.collapseRuns p r l) :
    c = r ∨ (c ∈ l ∧ p c = false) :=
  mem_collapseRunsAux p r false l c hc

theorem mem_removeAll (p : Char → Bool) (l : List Char) (c : Char)
    (hc : c ∈ DL.removeAll p l) : c ∈ l ∧ p c = false := by
  unfold DL.removeAll at hc
  have h := List.mem_filter.mp hc
  exact ⟨h.1, by simpa using h.2⟩

theorem mem_jsTrim (l : List Char) (c : Char) (hc : c ∈ DL.jsTrim l) :
    c ∈ l := by
  unfold DL.jsTrim at hc
  rw [List.mem_reverse] at hc
  have h1 := (List.dropWhile_sublist DL.jsWhitespace).mem hc
  rw [List.mem_reverse] at h1
  exact (List.dropWhile_sublist DL.jsWhitespace).mem h1

theorem mem_stripLeading (d : Char) (l : List Char) (c : Char)
    (hc : c ∈ DL.stripLeading d l) : c ∈ l := by
  unfold DL.stripLeading at hc
  exact (List.dropWhile_sublist _).mem hc

theorem mem_stripTrailing (d : Char) (l : List Char) (c : Char)
    (hc : c ∈ DL.stripTrailing d l) : c ∈ l := by
  unfold DL.stripTrailing at hc
  rw [List.mem_reverse] at hc
  have h1 := (List.dropWhile_sublist _).mem hc
  rw [List.mem_reverse] at h1
  exact h1

theorem stripLeading_head_ne (d : Char) (l : List Char) :
    (DL.stripLeading d l).head? ≠ some d := by
  unfold DL.stripLeading
  intro h
  cases hd : l.dropWhile (· = d) with
  | nil => rw [hd] at h; exact absurd h (by simp)
  | cons a t =>
    have hw := List.head?_dropWhile_not (· = d) l
    rw [hd] at hw h
    simp only [List.head?_cons, Option.some.injEq] at h
    subst h
    simp at hw

theorem stripTrailing_head_eq (d : Char) (l : List Char)
    (h : DL.stripTrailing d l ≠ []) :
    (DL.stripTrailing d l).head? = l.head? := by
  obtain ⟨r, hr⟩ := DL.stripTrailing_decomp d l
  conv_rhs => rw [hr]
  cases hst : DL.stripTrailing d l with
  | nil => exact absurd hst h
  | cons a t => simp

theorem sanitizeFilename_goodSeg (name : String) :
    DL.GoodSeg (DL.sanitizeFilename name).data := by
  have hfile : DL.GoodSeg ("file" : String).data := by
    refine ⟨by decide, by decide, by decide, by decide⟩
  have hbody : DL.sanitizeFilename name =
      (if !DL.isNonEmptyStringB name then "file"
       else
         if DL.jsTrim (DL.stripTrailing '.' (DL.stripLeading '.'
             (DL.collapseRuns DL.jsWhitespace ' '
               (DL.removeAll DL.controlChar
                 (DL.collapseRuns DL.invalidFileChar '-'
                   (DL.jsTrim name.data)))))) ≠ [] then
           ⟨DL.stripTrailing '.' (DL.stripLeading '.'
             (DL.collapseRuns DL.jsWhitespace ' '
               (DL.removeAll DL.controlChar
                 (DL.collapseRuns DL.invalidFileChar '-'
                   (DL.jsTrim name.data)))))⟩
         else "file") := rfl
  rw [hbody]
  cases hb : DL.isNonEmptyStringB name with
  | false =>
    rw [if_pos (show (!false) = true from rfl)]
    exact hfile
  | true =>
    rw [if_neg (show ¬(!true) = true from by decide)]
    by_cases h2 : DL.jsTrim (DL.stripTrailing '.' (DL.stripLeading '.'
        (DL.collapseRuns DL.jsWhitespace ' '
          (DL.removeAll DL.controlChar
            (DL.collapseRuns DL.invalidFileChar '-'
              (DL.jsTrim name.data)))))) ≠ []
    · rw [if_pos h2]
      obtain ⟨C, hC⟩ : ∃ x, DL.stripTrailing '.' (DL.stripLeading '.'
          (DL.collapseRuns DL.jsWhitespace ' '
            (DL.removeAll DL.controlChar
              (DL.collapseRuns DL.invalidFileChar '-'
                (DL.jsTrim name.data))))) = x := ⟨_, rfl⟩
      rw [hC] at h2 ⊢
      have hc4ne : C ≠ [] := by
        intro h0
        rw [h0] at h2
        exact h2 rfl
      have hhead : C.head? ≠ some '.' := by
        rw [← hC, stripTrailing_head_eq '.' _ (by rw [hC]; exact hc4ne)]
        exact stripLeading_head_ne '.' _
      show DL.GoodSeg C
      refine ⟨hc4ne, ?_, ?_, ?_⟩
      · intro h0
        rw [h0] at hhead
        exact hhead rfl
      · intro h0
        rw [h0] at hhead
        exact hhead rfl
      · intro c hcmem
        rw [← hC] at hcmem
        have hmem3 : c ∈ DL.collapseRuns DL.jsWhitespace ' '
            (DL.removeAll DL.controlChar
              (DL.collapseRuns DL.invalidFileChar '-'
                (DL.jsTrim name.data))) :=
          mem_stripLeading '.' _ c (mem_stripTrailing '.' _ c hcmem)
        rcases mem_collapseRuns _ _ _ c hmem3 with h3 | h3
        · subst h3
          exact ⟨by decide, by decide⟩
        · obtain ⟨hmem2, _⟩ := h3
          obtain ⟨hmem1, hcontrol⟩ := mem_removeAll _ _ c hmem2
          rcases mem_collapseRuns _ _ _ c hmem1 with h4 | h4
          · subst h4
            exact ⟨by decide, by decide⟩
          · exact ⟨h4.2, hcontrol⟩
    · rw [if_neg h2]; exact hfile

theorem joinWithChar_cons_cons (sep : Char) (s a : List Char)
    (t : List (List Char)) :
    DL.joinWithChar sep (s :: a :: t) =
      s ++ sep :: DL.joinWithChar sep (a :: t) := rfl

theorem joinWithChar_append_single (sep : Char) :
    ∀ (init : List (List Char)) (last : List Char), init ≠ [] →
      DL.joinWithChar sep (init ++ [last]) =
        DL.joinWithChar sep init ++ sep :: last := by
  intro init
  induction init with
  | nil => intro last h; exact absurd rfl h
  | cons s t ih =>
    intro last _
    cases t with
    | nil => rfl
    | cons a t2 =>
      rw [show (s :: a :: t2) ++ [last] = s :: ((a :: t2) ++ [last]) from rfl]
      rw [show DL.joinWithChar sep (s :: ((a :: t2) ++ [last])) =
        s ++ sep :: DL.joinWithChar sep ((a :: t2) ++ [last]) from rfl]
      rw [ih last (by simp), joinWithChar_cons_cons]
      simp

theorem joinWithChar_ne_nil (sep : Char) :
    ∀ (segs : List (List Char)), segs ≠ [] → (∀ s ∈ segs, s ≠ []) →
      DL.joinWithChar sep segs ≠ [] := by
  intro segs
  induction segs with
  | nil => intro h; exact absurd rfl h
  | cons s t _ =>
    intro _ hs
    cases t with
    | nil =>
      show DL.joinWithChar sep [s] ≠ []
      exact hs s (List.mem_cons_self _ _)
    | cons a t2 =>
      rw [joinWithChar_cons_cons]
      intro h0
      rcases List.append_eq_nil.mp h0 with ⟨_, h2⟩
      simp at h2

theorem mem_of_getLast (l : List Char) (a : Char) (h : l.getLast? = some a) :
    a ∈ l := by
  induction l with
  | nil => simp at h
  | cons c t ih =>
    cases t with
    | nil =>
      simp only [List.getLast?_singleton, Option.some.injEq] at h
      subst h
      exact List.mem_cons_self _ _
    | cons d t2 =>
      rw [show (c :: d :: t2).getLast? = (d :: t2).getLast? from
        List.getLast?_cons_cons] at h
      exact List.mem_cons_of_mem c (ih h)

theorem join_getLast_ne_slash :
    ∀ (segs : List (List Char)), segs ≠ [] →
      (∀ s ∈ segs, DL.GoodSeg s) →
      (DL.joinWithChar '/' segs).getLast? ≠ some '/' := by
  intro segs
  induction segs with
  | nil => intro h; exact absurd rfl h
  | cons s t ih =>
    intro _ hg
    cases t with
    | nil =>
      show (DL.joinWithChar '/' [s]).getLast? ≠ some '/'
      intro h0
      have hmem : '/' ∈ s := mem_of_getLast s '/' h0
      have := ((hg s (List.mem_cons_self _ _)).2.2.2 '/' hmem).1
      exact absurd this (by decide)
    | cons a t2 =>
      rw [joinWithChar_cons_cons]
      have hne : DL.joinWithChar '/' (a :: t2) ≠ [] := by
        refine joinWithChar_ne_nil '/' (a :: t2) (by simp) ?_
        intro x hx
        exact (hg x (List.mem_cons_of_mem s hx)).1
      cases hj : DL.joinWithChar '/' (a :: t2) with
      | nil => exact absurd hj hne
      | cons j jt =>
        rw [List.getLast?_append]
        rw [show ('/' :: j :: jt).getLast? = (j :: jt).getLast? from
          List.getLast?_cons_cons]
        have hlast := ih (by simp) fun x hx => hg x (List.mem_cons_of_mem s hx)
        rw [hj] at hlast
        cases hg2 : (j :: jt).getLast? with
        | none => simp at hg2
        | some b =>
          rw [hg2] at hlast
          rw [show (some b).or s.getLast? = some b from rfl]
          exact hlast

theorem join_split (init : List (List Char)) (last : List Char)
    (h : ∀ c ∈ last, c ≠ '/') :
    (DL.splitAfterLast '/' (DL.joinWithChar '/' (init ++ [last]))).1 =
      (if init = [] then [] else DL.joinWithChar '/' init ++ ['/']) ∧
    (DL.splitAfterLast '/' (DL.joinWithChar '/' (init ++ [last]))).2 =
      last := by
  cases hinit : init with
  | nil =>
    rw [if_pos rfl]
    show (DL.splitAfterLast '/' (DL.joinWithChar '/' [last])).1 = [] ∧
      (DL.splitAfterLast '/' (DL.joinWithChar '/' [last])).2 = last
    have hj : DL.joinWithChar '/' [last] = last := rfl
    rw [hj]
    constructor
    · rw [splitAfterLast_fst_eq]
      rw [dropWhile_eq_nil_of_all _ _ (by
        intro c hc
        simpa using h c (List.mem_reverse.mp hc))]
      rfl
    · rw [splitAfterLast_snd_eq]
      rw [takeWhile_eq_self_of_all _ _ (by
        intro c hc
        simpa using h c (List.mem_reverse.mp hc))]
      exact List.reverse_reverse _
  | cons s t =>
    rw [if_neg (by simp)]
    rw [joinWithChar_append_single '/' (s :: t) last (by simp)]
    exact splitAfterLast_concat_sep '/' _ last h

theorem digit_ok (c : Char) (h : DL.isDigitChar c = true) :
    DL.invalidFileChar c = false ∧ DL.controlChar c = false := by
  have hb : 48 ≤ c.toNat ∧ c.toNat ≤ 57 := by
    unfold DL.isDigitChar at h
    simpa using h
  constructor
  · have h1 : c ≠ '\\' := fun e => by subst e; exact absurd hb.2 (by decide)
    have h2 : c ≠ '/' := fun e => by subst e; exact absurd hb.1 (by decide)
    have h3 : c ≠ ':' := fun e => by subst e; exact absurd hb.2 (by decide)
    have h4 : c ≠ '*' := fun e => by subst e; exact absurd hb.1 (by decide)
    have h5 : c ≠ '?' := fun e => by subst e; exact absurd hb.2 (by decide)
    have h6 : c ≠ '"' := fun e => by subst e; exact absurd hb.1 (by decide)
    have h7 : c ≠ '<' := fun e => by subst e; exact absurd hb.2 (by decide)
    have h8 : c ≠ '>' := fun e => by subst e; exact absurd hb.2 (by decide)
    have h9 : c ≠ '|' := fun e => by subst e; exact absurd hb.2 (by decide)
    unfold DL.invalidFileChar
    simp [h1, h2, h3, h4, h5, h6, h7, h8, h9]
  · unfold DL.controlChar
    simp only [Bool.or_eq_false_iff, decide_eq_false_iff_not]
    omega

theorem mem_mkSuffix_ok (n : Nat) (c : Char) (hc : c ∈ DL.mkSuffix n) :
    DL.invalidFileChar c = false ∧ DL.controlChar c = false := by
  unfold DL.mkSuffix at hc
  rcases List.mem_cons.mp hc with rfl | hc2
  · exact ⟨by decide, by decide⟩
  rcases List.mem_cons.mp hc2 with rfl | hc3
  · exact ⟨by decide, by decide⟩
  rcases List.mem_append.mp hc3 with h4 | h4
  · exact digit_ok c (DL.decRepr_digits n c h4)
  · simp only [List.mem_singleton] at h4
    subst h4
    exact ⟨by decide, by decide⟩

theorem paren_mem_mkSuffix (n : Nat) : '(' ∈ DL.mkSuffix n := by
  unfold DL.mkSuffix
  exact List.mem_cons_of_mem _ (List.mem_cons_self _ _)

theorem goodSeg_no_dots (s : List Char) (hpar : '(' ∈ s) :
    s ≠ ['.'] ∧ s ≠ ['.', '.'] := by
  constructor
  · intro h0
    rw [h0] at hpar
    simp only [List.mem_singleton] at hpar
    exact absurd hpar (by decide)
  · intro h0
    rw [h0] at hpar
    simp only [List.mem_cons, List.not_mem_nil, or_false] at hpar
    rcases hpar with h | h <;> exact absurd h (by decide)

theorem goodSeg_append_mkSuffix (s : List Char) (hs : DL.GoodSeg s) (n : Nat) :
    DL.GoodSeg (s ++ DL.mkSuffix n) := by
  have hpar : '(' ∈ s ++ DL.mkSuffix n :=
    List.mem_append_right s (paren_mem_mkSuffix n)
  obtain ⟨hd1, hd2⟩ := goodSeg_no_dots _ hpar
  refine ⟨?_, hd1, hd2, ?_⟩
  · intro h0
    exact hs.1 (List.append_eq_nil.mp h0).1
  · intro c hc
    rcases List.mem_append.mp hc with h | h
    · exact hs.2.2.2 c h
    · exact mem_mkSuffix_ok n c h

theorem goodSeg_file_insert (filename : List Char) (hs : DL.GoodSeg filename)
    (n : Nat) :
    DL.GoodSeg ((DL.splitAfterLast '.' filename).1.dropLast ++
      (DL.mkSuffix n ++ ('.' :: (DL.splitAfterLast '.' filename).2))) := by
  have hpar : '(' ∈ (DL.splitAfterLast '.' filename).1.dropLast ++
      (DL.mkSuffix n ++ ('.' :: (DL.splitAfterLast '.' filename).2)) :=
    List.mem_append_right _ (List.mem_append_left _ (paren_mem_mkSuffix n))
  obtain ⟨hd1, hd2⟩ := goodSeg_no_dots _ hpar
  refine ⟨?_, hd1, hd2, ?_⟩
  · intro h0
    obtain ⟨_, h2⟩ := List.append_eq_nil.mp h0
    obtain ⟨h3, _⟩ := List.append_eq_nil.mp h2
    exact absurd h3 (DL.mkSuffix_ne_nil n)
  · intro c hc
    have hjoin := DL.splitAfterLast_join '.' filename
    rcases List.mem_append.mp hc with h | h
    · have h2 : c ∈ (DL.splitAfterLast '.' filename).1 :=
        (List.dropLast_sublist _).mem h
      have h3 : c ∈ filename := by
        rw [← hjoin]
        exact List.mem_append_left _ h2
      exact hs.2.2.2 c h3
    · rcases List.mem_append.mp h with h2 | h2
      · exact mem_mkSuffix_ok n c h2
      · rcases List.mem_cons.mp h2 with rfl | h3
        · exact ⟨by decide, by decide⟩
        · have h4 : c ∈ filename := by
            rw [← hjoin]
            exact List.mem_append_right _ h3
          exact hs.2.2.2 c h4

theorem dir_prefix_append (init : List (List Char)) (newseg : List Char) :
    (if init = [] then ([] : List Char)
     else DL.joinWithChar '/' init ++ ['/']) ++ newseg =
      DL.joinWithChar '/' (init ++ [newseg]) := by
  cases init with
  | nil => rfl
  | cons s t =>
    rw [if_neg (by simp), joinWithChar_append_single '/' (s :: t) newseg
      (by simp)]
    simp

theorem join_extend_last (init : List (List Char)) (last suf : List Char) :
    DL.joinWithChar '/' (init ++ [last]) ++ suf =
      DL.joinWithChar '/' (init ++ [last ++ suf]) := by
  cases init with
  | nil => rfl
  | cons s t =>
    rw [joinWithChar_append_single '/' (s :: t) last (by simp),
      joinWithChar_append_single '/' (s :: t) (last ++ suf) (by simp)]
    simp

theorem nextCandidate_good (k : String) (hg : DL.GoodPath k) (j : Nat) :
    DL.GoodPath ⟨DL.nextCandidate (decide (k.data.getLast? = some '/'))
      k.data j⟩ := by
  obtain ⟨segs, hne, hgood, hcase⟩ := hg
  obtain ⟨init, last, hsegs⟩ : ∃ init last, segs = init ++ [last] := by
    rcases List.eq_nil_or_concat segs with h | ⟨L, b, h⟩
    · exact absurd h hne
    · exact ⟨L, b, by rw [h, List.concat_eq_append]⟩
  subst hsegs
  have hlastgood : DL.GoodSeg last := hgood last (by simp)
  have hinitgood : ∀ s ∈ init, DL.GoodSeg s := fun s hs =>
    hgood s (List.mem_append_left _ hs)
  have hlast_noslash : ∀ c ∈ last, c ≠ '/' := by
    intro c hc heq
    subst heq
    exact absurd (hlastgood.2.2.2 '/' hc).1 (by decide)
  rcases hcase with hk | hk
  · -- no trailing slash: the file candidate
    have hdir : (decide (k.data.getLast? = some '/')) = false := by
      rw [hk]
      simp only [decide_eq_false_iff_not]
      exact join_getLast_ne_slash (init ++ [last]) (by simp) hgood
    rw [hdir]
    have hnc : DL.nextCandidate false k.data j = DL.fileCandidate k.data j :=
      rfl
    rw [hnc]
    obtain ⟨hfst, hsnd⟩ := join_split init last hlast_noslash
    rw [← hk] at hfst hsnd
    have hbody : DL.fileCandidate k.data j =
        (if 2 ≤ ((DL.splitAfterLast '.'
            ((DL.splitAfterLast '/' k.data).2)).1).length then
          (DL.splitAfterLast '/' k.data).1 ++
            (((DL.splitAfterLast '.'
              ((DL.splitAfterLast '/' k.data).2)).1).dropLast ++
              (DL.mkSuffix j ++ ('.' :: (DL.splitAfterLast '.'
                ((DL.splitAfterLast '/' k.data).2)).2)))
        else (DL.splitAfterLast '/' k.data).1 ++
          ((DL.splitAfterLast '/' k.data).2 ++ DL.mkSuffix j)) := rfl
    by_cases hdot : 2 ≤ ((DL.splitAfterLast '.' last).1).length
    · have hres : DL.fileCandidate k.data j =
          (if init = [] then ([] : List Char)
           else DL.joinWithChar '/' init ++ ['/']) ++
            ((DL.splitAfterLast '.' last).1.dropLast ++
              (DL.mkSuffix j ++ ('.' :: (DL.splitAfterLast '.' last).2))) := by
        rw [hbody, hsnd, if_pos hdot, hfst]
      refine ⟨init ++ [(DL.splitAfterLast '.' last).1.dropLast ++
        (DL.mkSuffix j ++ ('.' :: (DL.splitAfterLast '.' last).2))],
        by simp, ?_, Or.inl ?_⟩
      · intro s hs
        rcases List.mem_append.mp hs with h | h
        · exact hinitgood s h
        · simp only [List.mem_singleton] at h
          subst h
          exact goodSeg_file_insert last hlastgood j
      · show DL.fileCandidate k.data j = _
        rw [hres, dir_prefix_append]
    · have hres : DL.fileCandidate k.data j =
          (if init = [] then ([] : List Char)
           else DL.joinWithChar '/' init ++ ['/']) ++
            (last ++ DL.mkSuffix j) := by
        rw [hbody, hsnd, if_neg hdot, hfst]
      refine ⟨init ++ [last ++ DL.mkSuffix j], by simp, ?_, Or.inl ?_⟩
      · intro s hs
        rcases List.mem_append.mp hs with h | h
        · exact hinitgood s h
        · simp only [List.mem_singleton] at h
          subst h
          exact goodSeg_append_mkSuffix last hlastgood j
      · show DL.fileCandidate k.data j = _
        rw [hres, dir_prefix_append]
  · -- trailing slash: the directory candidate
    have hdir : (decide (k.data.getLast? = some '/')) = true := by
      rw [hk]
      simp only [decide_eq_true_eq]
      exact List.getLast?_concat _
    rw [hdir]
    have hnc : DL.nextCandidate true k.data j = DL.dirCandidate k.data j := rfl
    rw [hnc]
    have hstrip : DL.stripTrailing '/' k.data =
        DL.joinWithChar '/' (init ++ [last]) := by
      rw [hk, DL.stripTrailing_concat]
      exact DL.stripTrailing_eq_self
        (join_getLast_ne_slash (init ++ [last]) (by simp) hgood)
    have hres : DL.dirCandidate k.data j =
        DL.joinWithChar '/' (init ++ [last ++ DL.mkSuffix j]) ++ ['/'] := by
      have hb2 : DL.dirCandidate k.data j =
          DL.stripTrailing '/' k.data ++ DL.mkSuffix j ++ ['/'] := rfl
      rw [hb2, hstrip, join_extend_last]
    refine ⟨init ++ [last ++ DL.mkSuffix j], by simp, ?_, Or.inr ?_⟩
    · intro s hs
      rcases List.mem_append.mp hs with h | h
      · exact hinitgood s h
      · simp only [List.mem_singleton] at h
        subst h
        exact goodSeg_append_mkSuffix last hlastgood j
    · show DL.dirCandidate k.data j = _
      rw [hres]

theorem getSafePathAux_shape (files : List (String × DL.Blob))
    (ign : List String) (isDir : Bool) (bp : List Char) :
    ∀ (fuel counter : Nat) (cand res : List Char),
      (cand = bp ∨ ∃ j, cand = DL.nextCandidate isDir bp j) →
      DL.getSafePathAux files ign isDir bp fuel counter cand = some res →
      (res = bp ∨ ∃ j, res = DL.nextCandidate isDir bp j) := by
  intro fuel
  induction fuel with
  | zero =>
    intro counter cand res _ h
    exact absurd h (by simp [DL.getSafePathAux])
  | succ f ih =>
    intro counter cand res hc h
    rw [show DL.getSafePathAux files ign isDir bp (f + 1) counter cand =
      (if DL.collides files ign isDir cand then
        DL.getSafePathAux files ign isDir bp f (counter + 1)
          (DL.nextCandidate isDir bp counter)
      else some cand) from rfl] at h
    by_cases hcol : DL.collides files ign isDir cand = true
    · rw [if_pos hcol] at h
      exact ih (counter + 1) _ res (Or.inr ⟨counter, rfl⟩) h
    · rw [if_neg hcol] at h
      have hcr : cand = res := by
        simpa using h
      rw [← hcr]
      exact hc

theorem sanitizeFilepath_good (p : String) :
    DL.GoodPath (DL.sanitizeFilepath p) := by
  have hfile : DL.GoodPath ("file" : String) := by
    refine ⟨[['f', 'i', 'l', 'e']], by simp, ?_, Or.inl rfl⟩
    intro s hs
    simp only [List.mem_singleton] at hs
    subst hs
    exact ⟨by decide, by decide, by decide, by decide⟩
  have hbody : DL.sanitizeFilepath p =
      (if DL.joinWithChar '/'
          ((((DL.splitOnChar '/' (p.data.map fun c =>
              if c = '\\' then '/' else c)).map DL.jsTrim).filter
            (fun s => s ≠ [] && s ≠ ['.'] && s ≠ ['.', '.'])).map
            fun s => (DL.sanitizeFilename ⟨s⟩).data) = [] then "file"
       else if (p.data.map fun c =>
            if c = '\\' then '/' else c).getLast? = some '/' then
         ⟨DL.joinWithChar '/'
          ((((DL.splitOnChar '/' (p.data.map fun c =>
              if c = '\\' then '/' else c)).map DL.jsTrim).filter
            (fun s => s ≠ [] && s ≠ ['.'] && s ≠ ['.', '.'])).map
            fun s => (DL.sanitizeFilename ⟨s⟩).data) ++ ['/']⟩
       else
         ⟨DL.joinWithChar '/'
          ((((DL.splitOnChar '/' (p.data.map fun c =>
              if c = '\\' then '/' else c)).map DL.jsTrim).filter
            (fun s => s ≠ [] && s ≠ ['.'] && s ≠ ['.', '.'])).map
            fun s => (DL.sanitizeFilename ⟨s⟩).data)⟩) := rfl
  rw [hbody]
  obtain ⟨P, hP⟩ : ∃ x, (((DL.splitOnChar '/' (p.data.map fun c =>
      if c = '\\' then '/' else c)).map DL.jsTrim).filter
      (fun s => s ≠ [] && s ≠ ['.'] && s ≠ ['.', '.'])).map
      (fun s => (DL.sanitizeFilename ⟨s⟩).data) = x := ⟨_, rfl⟩
  rw [hP]
  by_cases h1 : DL.joinWithChar '/' P = []
  · rw [if_pos h1]
    exact hfile
  · rw [if_neg h1]
    have hPne : P ≠ [] := by
      intro h0
      rw [h0] at h1
      exact h1 rfl
    have hPgood : ∀ s ∈ P, DL.GoodSeg s := by
      intro s hs
      rw [← hP] at hs
      obtain ⟨x, _, hxs⟩ := List.mem_map.mp hs
      rw [← hxs]
      exact sanitizeFilename_goodSeg ⟨x⟩
    by_cases h2 : (p.data.map fun c =>
        if c = '\\' then '/' else c).getLast? = some '/'
    · rw [if_pos h2]
      exact ⟨P, hPne, hPgood, Or.inr rfl⟩
    · rw [if_neg h2]
      exact ⟨P, hPne, hPgood, Or.inl rfl⟩

theorem getSafePath_good (st : DL.ArchiveTool) (path : String)
    (ign : List String) (res : String)
    (h : st.getSafePath path ign = some res) : DL.GoodPath res := by
  have hb : st.getSafePath path ign =
      (DL.getSafePathAux st.files ign
        (decide ((DL.sanitizeFilepath path).data.getLast? = some '/'))
        (DL.sanitizeFilepath path).data (st.files.length + 1) 1
        (DL.sanitizeFilepath path).data).map
        (fun l => (⟨l⟩ : String)) := rfl
  rw [hb] at h
  obtain ⟨l, hl, hres⟩ := Option.map_eq_some'.mp h
  have hshape := getSafePathAux_shape st.files ign
    (decide ((DL.sanitizeFilepath path).data.getLast? = some '/'))
    (DL.sanitizeFilepath path).data (st.files.length + 1) 1
    (DL.sanitizeFilepath path).data l (Or.inl rfl) hl
  rw [← hres]
  rcases hshape with rfl | ⟨j, rfl⟩
  · exact sanitizeFilepath_good path
  · exact nextCandidate_good (DL.sanitizeFilepath path)
      (sanitizeFilepath_good path) j

theorem keys_objSet (files : List (String × DL.Blob)) (k : String)
    (v : DL.Blob) :
    ∀ k2 ∈ DL.keysOf (DL.objSet files k v), k2 ∈ DL.keysOf files ∨ k2 = k := by
  intro k2 h2
  unfold DL.objSet at h2
  by_cases hc : (DL.keysOf files).contains k = true
  · rw [if_pos hc] at h2
    unfold DL.keysOf at h2 ⊢
    rw [List.map_map] at h2
    obtain ⟨e, he, hek⟩ := List.mem_map.mp h2
    by_cases he1 : e.1 = k
    · right
      rw [← hek]
      simp [Function.comp, he1]
    · left
      refine List.mem_map.mpr ⟨e, he, ?_⟩
      rw [← hek]
      simp [Function.comp, he1]
  · rw [if_neg hc] at h2
    unfold DL.keysOf at h2 ⊢
    rw [List.map_append] at h2
    rcases List.mem_append.mp h2 with h | h
    · left
      exact h
    · right
      simpa using h

theorem keys_objDelete (files : List (String × DL.Blob)) (k : String) :
    ∀ k2 ∈ DL.keysOf (DL.objDelete files k), k2 ∈ DL.keysOf files := by
  intro k2 h2
  unfold DL.objDelete at h2
  unfold DL.keysOf at h2 ⊢
  obtain ⟨e, he, rfl⟩ := List.mem_map.mp h2
  exact List.mem_map.mpr ⟨e, (List.mem_filter.mp he).1, rfl⟩

/-- C10 (amended): the implicit key invariant that actually holds and is
preserved is well-formedness — every key is a nonempty '/'-join of segments
that are nonempty, are not "." or "..", and contain no invalid filename or
control characters, with at most one trailing slash; keys need NOT be fixed
points of sanitizeFilepath, because sanitizeFilename is not idempotent
(stripping trailing dots can expose trailing whitespace). -/
theorem c10_key_invariant_amended :
    DL.StoreInv DL.ArchiveTool.init ∧
      (∀ (st : DL.ArchiveTool) (p : String) (b : DL.Blob),
        DL.StoreInv st → DL.StoreInv (st.addFile p b)) ∧
      (∀ (st : DL.ArchiveTool) (p q : String),
        DL.StoreInv st → DL.StoreInv (st.renameFile p q)) ∧
      (∀ (st : DL.ArchiveTool) (p : String) (r : Bool),
        DL.StoreInv st → DL.StoreInv (st.deleteFile p r)) := by
  refine ⟨?_, ?_, ?_, ?_⟩
  · intro k hk
    simp [DL.ArchiveTool.init, DL.keysOf] at hk
  · intro st p b hinv k hk
    have hk2 : k ∈ DL.keysOf (match st.getSafePath p [] with
        | some p2 =>
          { st with
            files := DL.objSet st.files p2 b
            archive := none }
        | none => st).files := hk
    cases hsp : st.getSafePath p [] with
    | none =>
      rw [hsp] at hk2
      exact hinv k hk2
    | some p2 =>
      rw [hsp] at hk2
      have hk3 : k ∈ DL.keysOf (DL.objSet st.files p2 b) := hk2
      rcases keys_objSet st.files p2 b k hk3 with h | rfl
      · exact hinv k h
      · exact getSafePath_good st p [] k hsp
  · intro st p q hinv k hk
    have hk2 : k ∈ DL.keysOf (if (DL.keysOf st.files).contains p then
        (match st.getSafePath q [] with
         | some np =>
           (match st.files.lookup p with
            | some file => { st with
                files := DL.objDelete (DL.objSet st.files np file) p }
            | none => st)
         | none => st)
      else st).files := hk
    by_cases hc : (DL.keysOf st.files).contains p = true
    · rw [if_pos hc] at hk2
      cases hsp : st.getSafePath q [] with
      | none =>
        rw [hsp] at hk2
        exact hinv k hk2
      | some np =>
        rw [hsp] at hk2
        cases hlk : st.files.lookup p with
        | none =>
          rw [hlk] at hk2
          exact hinv k hk2
        | some file =>
          rw [hlk] at hk2
          have hk3 : k ∈ DL.keysOf
              (DL.objDelete (DL.objSet st.files np file) p) := hk2
          have hk4 := keys_objDelete (DL.objSet st.files np file) p k hk3
          rcases keys_objSet st.files np file k hk4 with h | rfl
          · exact hinv k h
          · exact getSafePath_good st q [] k hsp
    · rw [if_neg hc] at hk2
      exact hinv k hk2
  · intro st p r hinv k hk
    have hk2 : k ∈ DL.keysOf (if (DL.keysOf st.files).contains p then
        { st with files := DL.objDelete st.files p }
      else st).files := hk
    by_cases hc : (DL.keysOf st.files).contains p = true
    · rw [if_pos hc] at hk2
      have hk3 : k ∈ DL.keysOf (DL.objDelete st.files p) := hk2
      exact hinv k (keys_objDelete st.files p k hk3)
    · rw [if_neg hc] at hk2
      exact hinv k hk2

/-- C10 counterexample: adding "a ../x" to an empty store stores the key
"a /x" — and that key is not a fixed point of sanitizeFilepath, which maps
it to "a/x": stored keys are not "sanitized paths" in the fixed-point sense
the claim asserts. -/
theorem c10_counterexample :
    DL.keysOf (DL.ArchiveTool.init.addFile "a ../x" ⟨[1]⟩).files =
        ["a /x"] ∧
      DL.sanitizeFilepath "a /x" = "a/x" ∧
      DL.sanitizeFilepath "a /x" ≠ "a /x" := by
  refine ⟨by decide, by decide, by decide⟩

/-- Witness: the amended preservation theorem applied to one concrete
addFile on the empty store. -/
theorem c10_witness :
    DL.StoreInv (DL.ArchiveTool.init.addFile "a ../x" ⟨[1]⟩) :=
  c10_key_invariant_amended.2.1 DL.ArchiveTool.init "a ../x" ⟨[1]⟩
    (by intro k hk; simp [DL.ArchiveTool.init, DL.keysOf] at hk)
